import Mathlib

/-!
Verification of the firebase-unity-sdk SWIG post-processing scripts
(swig_post_process.py, swig_nested_fix.py, swig_commenter.py) against their
natural-language specification.  The Python code is shallowly embedded:
file contents are lists of characters, each regular expression of the source
is hand-compiled into an equivalent explicit matcher (greedy/lazy/backtracking
behaviour resolved deterministically, as documented at each definition), and
the file-system effects of swig_nested_fix.py are modelled as an explicit
event trace over an association-list file system.

Modelling conventions:
  - only the ASCII whitespace and word characters that re treats specially
    are modelled (the generated sources are ASCII);
  - scanning loops that consume at least one character per step use a fuel
    parameter equal to the input length, so every definition is structurally
    recursive and computable by the kernel;
  - fallible operations (a rule that can raise, a file read that can fail)
    return Option or Except.
-/

set_option maxRecDepth 10000

namespace SwigSpec

/-- File contents and lines are modelled as lists of characters. -/
abbrev Str := List Char

/-- Python and re whitespace (ASCII subset, matching "\t\n\v\f\r "). -/
def pyIsSpace (c : Char) : Bool :=
  c = ' ' || c = '\t' || c = '\n' || c = '\r' || c = '\x0b' || c = '\x0c'

/-- Word characters of the regex class [a-zA-Z_0-9] (and re \w on ASCII). -/
def isWordChar (c : Char) : Bool :=
  ('a' ≤ c && c ≤ 'z') || ('A' ≤ c && c ≤ 'Z') || ('0' ≤ c && c ≤ '9') || c = '_'

/-- Characters at which Python str.splitlines breaks a line (ASCII subset
plus the unicode breaks; a following '\n' after '\r' is consumed with it). -/
def isLineBreak (c : Char) : Bool :=
  c = '\n' || c = '\r' || c = '\x0b' || c = '\x0c' ||
  c = '\x1c' || c = '\x1d' || c = '\x1e' || c = '\x85' ||
  c = ' ' || c = ' '

/-- Core of splitLinesPy; the accumulator holds the current line reversed. -/
def splitLinesAux : Str → Str → List Str
  | [], acc => if acc.isEmpty then [] else [acc.reverse]
  | '\r' :: '\n' :: rest, acc => acc.reverse :: splitLinesAux rest []
  | c :: rest, acc =>
      if isLineBreak c then acc.reverse :: splitLinesAux rest []
      else splitLinesAux rest (c :: acc)

/-- Python str.splitlines(): split at line breaks, no trailing empty line. -/
def splitLinesPy (s : Str) : List Str := splitLinesAux s []

/-- Join lines with a single newline: the "\n".join used by every rule that
rebuilds a file from str.splitlines output. -/
def joinNL (ls : List Str) : Str := List.intercalate ['\n'] ls

/-- Split on bare newline characters, keeping empty pieces: the line
structure seen by re.MULTILINE (whose anchors recognise only '\n'). -/
def splitNL : Str → List Str
  | [] => [[]]
  | '\n' :: rest => [] :: splitNL rest
  | c :: rest =>
      match splitNL rest with
      | [] => [[c]]
      | l :: ls => (c :: l) :: ls

/-- Split a file into lines that keep their trailing newline character:
Python file iteration and readlines. -/
def linesKeepNLAux : Str → Str → List Str
  | [], acc => if acc.isEmpty then [] else [acc.reverse]
  | '\n' :: rest, acc => (('\n' :: acc).reverse) :: linesKeepNLAux rest []
  | c :: rest, acc => linesKeepNLAux rest (c :: acc)

/-- Python readlines / file iteration: lines with their newline kept. -/
def linesKeepNL (s : Str) : List Str := linesKeepNLAux s []

/-- Strip a literal from the front of a string, returning the remainder. -/
def litStrip : Str → Str → Option Str
  | [], s => some s
  | _ :: _, [] => none
  | p :: ps, c :: cs => if p = c then litStrip ps cs else none

/-- Python str.startswith for list-of-character strings. -/
def startsWithStr (s p : Str) : Bool := (litStrip p s).isSome

/-- Python str.endswith for list-of-character strings. -/
def endsWithStr (s p : Str) : Bool := (litStrip p.reverse s.reverse).isSome

/-- Whether pat occurs as a contiguous substring (Python "in"). -/
def hasSub (pat : Str) : Str → Bool
  | [] => (litStrip pat ([] : Str)).isSome
  | c :: cs => (litStrip pat (c :: cs)).isSome || hasSub pat cs

/-- The suffix just after the first occurrence of pat, if pat occurs. -/
def afterSub (pat : Str) : Str → Option Str
  | [] => litStrip pat ([] : Str)
  | c :: cs =>
      match litStrip pat (c :: cs) with
      | some r => some r
      | none => afterSub pat cs

/-- Python str.lstrip() with no argument. -/
def pyLstrip (s : Str) : Str := s.dropWhile pyIsSpace

/-- Python str.rstrip() with no argument. -/
def pyRstrip (s : Str) : Str := (s.reverse.dropWhile pyIsSpace).reverse

/-- Python str.strip() with no argument. -/
def pyStrip (s : Str) : Str := pyLstrip (pyRstrip s)

/-- One step of Python str.replace: fuel-bounded scan, replacing each
non-overlapping occurrence from the left.  Fuel is the input length; a
successful match consumes at least one character when pat is nonempty. -/
def replaceAllAux (pat rep : Str) : Nat → Str → Str
  | _, [] => []
  | 0, s => s
  | fuel + 1, c :: cs =>
      match litStrip pat (c :: cs) with
      | some rest => rep ++ replaceAllAux pat rep fuel rest
      | none => c :: replaceAllAux pat rep fuel cs

/-- Python str.replace(pat, rep) (for the nonempty patterns the code uses). -/
def replaceAll (pat rep s : Str) : Str :=
  if pat.isEmpty then s else replaceAllAux pat rep s.length s

/-- Generic re.sub driver: at each position try a match; on success emit the
replacement and continue after the match, else emit the character and move
one position right.  Fuel is the input length (every accepted match consumes
at least one character in the matchers below). -/
def scanSub (tryAt : Str → Option (Str × Str)) : Nat → Str → Str
  | _, [] => []
  | 0, s => s
  | fuel + 1, c :: cs =>
      match tryAt (c :: cs) with
      | some (out, rest) => out ++ scanSub tryAt fuel rest
      | none => c :: scanSub tryAt fuel cs

/-- Whether the matcher fires at any position (re.search succeeds). -/
def scanHas (tryAt : Str → Option (Str × Str)) : Str → Bool
  | [] => false
  | c :: cs => (tryAt (c :: cs)).isSome || scanHas tryAt cs

/-! ### swig_post_process.py, class FixSealedClasses

virtual_regexp  = r"( +)virtual +"          substituted by the space group;
protected_regexp = r"protected ([^ ]+ [^ ]+ *;)"  substituted by private + group;
sealed_class_regexp = r"sealed .*class ([^ ]+).*\x7b"  searched only.
-/

def sVirtual : Str := ("virtual").toList

def sProtectedSp : Str := ("protected ").toList

def sPrivateSp : Str := ("private ").toList

def sSealedSp : Str := ("sealed ").toList

def sClassSp : Str := ("class ").toList

/-- Match of "( +)virtual +" at the current position: one or more spaces,
the literal, one or more spaces; the replacement is the leading space group
(both space runs are maximal since backtracking cannot help a literal). -/
def tryVirtual (s : Str) : Option (Str × Str) :=
  let sp := s.takeWhile (· = ' ')
  if sp.isEmpty then none else
  match litStrip sVirtual (s.drop sp.length) with
  | none => none
  | some r =>
      let sp2 := r.takeWhile (· = ' ')
      if sp2.isEmpty then none else some (sp, r.drop sp2.length)

/-- re.sub of virtual_regexp over one line. -/
def virtualSub (line : Str) : Str := scanSub tryVirtual line.length line

/-- Last index of a semicolon in run that leaves a nonempty [^ ]+ before it:
the backtracking target of "[^ ]+ *;" when the greedy attempt fails. -/
def lastSemiAux : Str → Nat → Option Nat
  | [], _ => none
  | c :: cs, i =>
      match lastSemiAux cs (i + 1) with
      | some j => some j
      | none => if c = ';' && 1 ≤ i then some i else none

def lastSemi (run : Str) : Option Nat := lastSemiAux run 0

/-- Match of protected_regexp at the current position, returning the full
replacement text "private " + group and the remainder.  The group is
[^ ]+ SPACE [^ ]+ SPACE* SEMI where the second token is the maximal
non-space run when a space-run-then-semicolon follows it, and otherwise
backtracks to the last interior semicolon that leaves a nonempty token. -/
def tryProtected (s : Str) : Option (Str × Str) :=
  match litStrip sProtectedSp s with
  | none => none
  | some r =>
      let tok1 := r.takeWhile (· ≠ ' ')
      if tok1.isEmpty then none else
      match r.drop tok1.length with
      | ' ' :: r2 =>
          let run := r2.takeWhile (· ≠ ' ')
          if run.isEmpty then none else
          let after := r2.drop run.length
          let sps := after.takeWhile (· = ' ')
          match after.drop sps.length with
          | ';' :: rest =>
              some (sPrivateSp ++ tok1 ++ ' ' :: (run ++ sps ++ [';']), rest)
          | _ =>
              match lastSemi run with
              | some i =>
                  some (sPrivateSp ++ tok1 ++ ' ' :: (run.take i ++ [';']),
                        run.drop (i + 1) ++ after)
              | none => none
      | _ => none

/-- re.sub of protected_regexp over one line. -/
def protectedSub (line : Str) : Str := scanSub tryProtected line.length line

/-- Search for "class ([^ ]+).*\x7b" at any position of the remainder:
a "class " literal followed by a non-space character with a later brace
(a shorter [^ ]+ always backtracks down to a single character). -/
def classBraceScan : Str → Bool
  | [] => false
  | c :: cs =>
      (match litStrip sClassSp (c :: cs) with
       | some (d :: r3) => d ≠ ' ' && r3.contains '{'
       | _ => false) || classBraceScan cs

/-- re.search of sealed_class_regexp on a line (only its success matters:
the captured class name is used by the source for logging alone). -/
def sealedSearch : Str → Bool
  | [] => false
  | c :: cs =>
      (match litStrip sSealedSp (c :: cs) with
       | some r => classBraceScan r
       | none => false) || sealedSearch cs

/-- The per-line loop of FixSealedClasses.__call__: the stack holds the
scope depths of sealed classes in push order (the source inspects element 0,
the oldest, and pop removes the newest); a line at the tracked depth is
rewritten by the two substitutions, a line below it pops the stack; braces
on the (possibly rewritten) line then update the depth, and a sealed-class
match pushes the updated depth. -/
def fixSealedLoop : List Str → List Int → Int → List Str
  | [], _, _ => []
  | line :: rest, stack, scope =>
      let step : Str × List Int :=
        match stack with
        | [] => (line, stack)
        | top :: _ =>
            if scope = top then (protectedSub (virtualSub line), stack)
            else if scope < top then (line, stack.dropLast)
            else (line, stack)
      let line1 := step.1
      let scope1 := scope + (line1.count '{' : Int) - (line1.count '}' : Int)
      let stack2 := if sealedSearch line1 then step.2 ++ [scope1] else step.2
      line1 :: fixSealedLoop rest stack2 scope1

/-- FixSealedClasses.__call__ on a whole file. -/
def fixSealedClasses (s : Str) : Str :=
  joinNL (fixSealedLoop (splitLinesPy s) [] 0)

/-! ### swig_post_process.py, class RenameAsyncMethods

Two anchored regexes tried in order on each line:
  r"( +System\.Threading\.Tasks\.Task<[^>]+> +)([^ ]+)( *\([^)]*\) *\x7b)$"
  r"( +System\.Threading\.Tasks\.Task +)(\w+)( *\([^)]*\) *\x7b)$"
-/

def sTask : Str := ("System.Threading.Tasks.Task").toList

def sTaskLt : Str := ("System.Threading.Tasks.Task<").toList

def sAsync : Str := ("Async").toList

def sAsyncDep : Str := ("Async_DEPRECATED").toList

def sDep : Str := ("_DEPRECATED").toList

def sDepAsync : Str := ("_DEPRECATEDAsync").toList

def sGetTask : Str := ("GetTask").toList

/-- Parse " *\([^)]*\) *\x7b$": optional spaces, a parenthesised argument
list without ')', optional spaces, an opening brace ending the line; returns
the matched text (group 3 of both regexes). -/
def parenTail (s : Str) : Option Str :=
  let sp3 := s.takeWhile (· = ' ')
  match s.drop sp3.length with
  | '(' :: r4 =>
      let args := r4.takeWhile (· ≠ ')')
      match r4.drop args.length with
      | ')' :: r5 =>
          let sp4 := r5.takeWhile (· = ' ')
          match r5.drop sp4.length with
          | ['{'] => some (sp3 ++ '(' :: (args ++ ')' :: (sp4 ++ ['{'])))
          | _ => none
      | _ => none
  | _ => none

/-- Match of the plain-Task regex at the current position; the method name
\w+ is the maximal word run (no backtracking can help, as every shorter
candidate is followed by a word character). -/
def task2TryAt (s : Str) : Option (Str × Str × Str) :=
  let sp := s.takeWhile (· = ' ')
  if sp.isEmpty then none else
  match litStrip sTask (s.drop sp.length) with
  | none => none
  | some r =>
      let sp2 := r.takeWhile (· = ' ')
      if sp2.isEmpty then none else
      let r2 := r.drop sp2.length
      let name := r2.takeWhile isWordChar
      if name.isEmpty then none else
      match parenTail (r2.drop name.length) with
      | some g3 => some (sp ++ sTask ++ sp2, name, g3)
      | none => none

/-- Backtracking for "([^ ]+)( *\(...)": the greedy non-space run shrinks
from the right until the parenthesised tail parses. -/
def g2Backtrack (run after : Str) : Nat → Option (Str × Str)
  | 0 => none
  | len + 1 =>
      match parenTail (run.drop (len + 1) ++ after) with
      | some g3 => some (run.take (len + 1), g3)
      | none => g2Backtrack run after len

/-- Match of the generic-Task regex (Task<...>) at the current position. -/
def task1TryAt (s : Str) : Option (Str × Str × Str) :=
  let sp := s.takeWhile (· = ' ')
  if sp.isEmpty then none else
  match litStrip sTaskLt (s.drop sp.length) with
  | none => none
  | some r =>
      let inner := r.takeWhile (· ≠ '>')
      if inner.isEmpty then none else
      match r.drop inner.length with
      | '>' :: r1 =>
          let sp2 := r1.takeWhile (· = ' ')
          if sp2.isEmpty then none else
          let r2 := r1.drop sp2.length
          let run := r2.takeWhile (· ≠ ' ')
          if run.isEmpty then none else
          match g2Backtrack run (r2.drop run.length) run.length with
          | some (name, g3) =>
              some (sp ++ sTaskLt ++ inner ++ '>' :: sp2, name, g3)
          | none => none
      | _ => none

/-- Leftmost search of an anchored matcher: the prefix before the match and
the three groups (the match always extends to the end of the line). -/
def scanMatch (tryAt : Str → Option (Str × Str × Str)) :
    Str → Option (Str × Str × Str × Str)
  | [] => none
  | c :: cs =>
      match tryAt (c :: cs) with
      | some (g1, g2, g3) => some ([], g1, g2, g3)
      | none =>
          match scanMatch tryAt cs with
          | some (pre, g1, g2, g3) => some (c :: pre, g1, g2, g3)
          | none => none

/-- The body of RenameAsyncMethods.__call__ once a regex matched: skip names
already ending in Async or Async_DEPRECATED and the name GetTask; otherwise
insert Async after the name and, for deprecated names, swap the suffix order
with str.replace over the whole line. -/
def asyncRewrite (pre g1 fn g3 : Str) : Str :=
  if endsWithStr fn sAsync || endsWithStr fn sAsyncDep || fn = sGetTask then
    pre ++ g1 ++ fn ++ g3
  else
    let line1 := pre ++ g1 ++ fn ++ sAsync ++ g3
    if endsWithStr fn sDep then replaceAll sDepAsync sAsyncDep line1 else line1

/-- RenameAsyncMethods on one line: the generic-Task regex is tried first. -/
def renameAsyncLine (line : Str) : Str :=
  match scanMatch task1TryAt line with
  | some (pre, g1, g2, g3) => asyncRewrite pre g1 g2 g3
  | none =>
      match scanMatch task2TryAt line with
      | some (pre, g1, g2, g3) => asyncRewrite pre g1 g2 g3
      | none => line

/-- RenameAsyncMethods.__call__ on a whole file. -/
def renameAsyncMethods (s : Str) : Str :=
  joinNL ((splitLinesPy s).map renameAsyncLine)

/-! ### swig_post_process.py, class SWIGEnumPostProcessing

Outer regex (re.DOTALL):
  r"(\s+enum\s+)([a-zA-Z_][a-zA-Z_0-9]*)(\s*\x7b\s*)(.*?)(\s*\x7d)"
Inner regex (re.MULTILINE), with the enum name interpolated literally:
  r"^(\s*)(k(?:NAME)?([a-zA-Z_0-9]*))(.*)"  replaced by space + new + end.
The inner multiline substitution is applied line by line over bare-newline
splits: a match whose leading whitespace group crosses newlines replaces
those newlines by themselves, so the per-line form produces the same text.
-/

def sEnum : Str := ("enum").toList

/-- One enum body line under the inner regex: strip a leading k plus the
optional enum-name prefix (committed greedily when it matches) and keep the
following word characters; records the old-name to new-name pair. -/
def enumMemberLine (name line : Str) : Str × List (Str × Str) :=
  let sp := line.takeWhile pyIsSpace
  match line.drop sp.length with
  | 'k' :: rest =>
      let nameUsed := (litStrip name rest).isSome
      let afterName := match litStrip name rest with
        | some t => t
        | none => rest
      let nw := afterName.takeWhile isWordChar
      let endp := afterName.drop nw.length
      let old := 'k' :: ((if nameUsed then name else []) ++ nw)
      (sp ++ nw ++ endp, [(old, nw)])
  | _ => (line, [])

/-- SWIGEnumPostProcessing._replace_enum_lines: the MULTILINE substitution
over the captured enum body, also returning the recorded mapping entries in
assignment order (the source stores them in self.enum_mapping). -/
def replaceEnumLines (name body : Str) : Str × List (Str × Str) :=
  let results := (splitNL body).map (enumMemberLine name)
  (joinNL (results.map Prod.fst), (results.map Prod.snd).flatten)

/-- Index of the first closing brace. -/
def firstCloseIdx : Str → Option Nat
  | [] => none
  | '}' :: _ => some 0
  | _ :: cs => (firstCloseIdx cs).map (· + 1)

/-- Split the text after the start group into the lazy (.*?) body, the
whitespace run of the end group, and the remainder after the brace: the lazy
group ends at the earliest point from which whitespace reaches the first
closing brace. -/
def bodySplit (body : Str) : Option (Str × Str × Str) :=
  match firstCloseIdx body with
  | none => none
  | some j =>
      let pre := body.take j
      let wsuf := pre.reverse.takeWhile pyIsSpace
      some (body.take (j - wsuf.length), wsuf.reverse, body.drop (j + 1))

/-- Match of the outer enum regex at the current position, returning the
full replacement text, the recorded mapping entries, and the remainder. -/
def tryEnumAt (s : Str) : Option (Str × List (Str × Str) × Str) :=
  let sp := s.takeWhile pyIsSpace
  if sp.isEmpty then none else
  match litStrip sEnum (s.drop sp.length) with
  | none => none
  | some r1 =>
      let sp2 := r1.takeWhile pyIsSpace
      if sp2.isEmpty then none else
      let r2 := r1.drop sp2.length
      match r2 with
      | c :: _ =>
          if c.isAlpha || c = '_' then
            let name := r2.takeWhile isWordChar
            let r3 := r2.drop name.length
            let sp3 := r3.takeWhile pyIsSpace
            match r3.drop sp3.length with
            | '{' :: r4 =>
                let sp4 := r4.takeWhile pyIsSpace
                match bodySplit (r4.drop sp4.length) with
                | some (lines, endws, rest) =>
                    let res := replaceEnumLines name lines
                    some (sp ++ sEnum ++ sp2 ++ name ++ sp3 ++
                            '{' :: (sp4 ++ res.1 ++ endws ++ ['}']),
                          res.2, rest)
                | none => none
            | _ => none
          else none
      | [] => none

/-- re.sub driver for the outer enum regex, accumulating the mapping. -/
def enumScan : Nat → Str → Str × List (Str × Str)
  | _, [] => ([], [])
  | 0, s => (s, [])
  | fuel + 1, c :: cs =>
      match tryEnumAt (c :: cs) with
      | some (out, maps, rest) =>
          let tail := enumScan fuel rest
          (out ++ tail.1, maps ++ tail.2)
      | none =>
          let tail := enumScan fuel cs
          (c :: tail.1, tail.2)

/-- SWIGEnumPostProcessing.__call__: the rewritten file and the mapping
entries recorded into self.enum_mapping during this call.  The source never
reads the mapping back, so the returned file text is a function of the
input text alone. -/
def swigEnumPostProcessing (s : Str) : Str × List (Str × Str) :=
  enumScan s.length s

/-- Whether the outer enum regex matches anywhere. -/
def enumHasMatch : Str → Bool
  | [] => false
  | c :: cs => (tryEnumAt (c :: cs)).isSome || enumHasMatch cs

/-! ### swig_post_process.py, class AddPInvokeAttribute

search_strings, in order:
  (ExceptionArgumentDelegate, "static void SetPendingArgument.*string paramName\)")
  (FirestoreExceptionDelegate, "static void SetPendingFirestoreException.*string message")
  (ExceptionDelegate, "static void SetPending.*string message")
  (SWIGStringDelegate, "static string CreateString")
A line that matches gets the attribute line inserted above it, indented by
the leading whitespace of the line; a matching line with no leading
whitespace raises AttributeError in the source (re.search returns None),
modelled as Option.none.  The rule only acts on iteration 0.
-/

def sSetPendingArg : Str := ("static void SetPendingArgument").toList

def sParamName : Str := ("string paramName)").toList

def sSetPendingFirestore : Str := ("static void SetPendingFirestoreException").toList

def sMessage : Str := ("string message").toList

def sSetPending : Str := ("static void SetPending").toList

def sCreateString : Str := ("static string CreateString").toList

def sExcArgDel : Str := ("ExceptionArgumentDelegate").toList

def sFirestoreDel : Str := ("FirestoreExceptionDelegate").toList

def sExcDel : Str := ("ExceptionDelegate").toList

def sSwigStringDel : Str := ("SWIGStringDelegate").toList

def sAttrOpen : Str := ("[MonoPInvokeCallback(typeof(").toList

def sAttrClose : Str := ("))]").toList

/-- Search of "A.*B" on one line: A occurs, and B occurs after it. -/
def hasSeq (a b line : Str) : Bool :=
  match afterSub a line with
  | some r => hasSub b r
  | none => false

/-- AddPInvokeAttribute.get_line_delegate. -/
def getLineDelegate (line : Str) : Option Str :=
  if hasSeq sSetPendingArg sParamName line then some sExcArgDel
  else if hasSeq sSetPendingFirestore sMessage line then some sFirestoreDel
  else if hasSeq sSetPending sMessage line then some sExcDel
  else if hasSub sCreateString line then some sSwigStringDel
  else none

/-- The lines emitted for one input line (none models the AttributeError on
a matching line without leading whitespace). -/
def pinvokeLine (line : Str) : Option (List Str) :=
  match getLineDelegate line with
  | none => some [line]
  | some d =>
      let lw := line.takeWhile pyIsSpace
      if lw.isEmpty then none
      else some [lw ++ sAttrOpen ++ d ++ sAttrClose, line]

/-- AddPInvokeAttribute.__call__. -/
def addPInvokeAttribute (s : Str) (iteration : Nat) : Option Str :=
  if iteration ≠ 0 then some s
  else ((splitLinesPy s).mapM pinvokeLine).map (fun ls => joinNL ls.flatten)

/-! ### swig_post_process.py, class InternalMethodsToInternalVisibility

function_property_regexp =
  r"(public.*? )([^ )]+Internal(Async)?(_DEPRECATED)?)($| +|[(\x7b])"
Only the extent of group 1 matters for the output: the line is rebuilt as
line[:start(1)] + group(1).replace(public, internal) + line[end(1):].
-/

def sPublic : Str := ("public").toList

def sInternalVis : Str := ("internal").toList

def sInternal : Str := ("Internal").toList

def sTripleSlash : Str := ("///").toList

/-- Character class [^ )]. -/
def notSpParen (c : Char) : Bool := c ≠ ' ' && c ≠ ')'

/-- Terminator alternation ($| +|[(\x7b]) at the current position. -/
def termAt : Str → Bool
  | [] => true
  | c :: _ => c = ' ' || c = '(' || c = '{'

/-- The optional (Async)?(_DEPRECATED)? groups followed by the terminator,
in the backtracking order yes-yes, yes-no, no-yes, no-no; rem is what is
left of the maximal [^ )] run, tail the text after that run. -/
def internalOptsOk (rem tail : Str) : Bool :=
  (match litStrip sAsync rem with
   | some rem2 =>
       (match litStrip sDep rem2 with
        | some rem3 => termAt (rem3 ++ tail)
        | none => false) || termAt (rem2 ++ tail)
   | none => false) ||
  (match litStrip sDep rem with
   | some rem3 => termAt (rem3 ++ tail)
   | none => false) ||
  termAt (rem ++ tail)

/-- Scan for the literal Internal inside the maximal [^ )] run at offsets
n, n-1, ..., 1 (the greedy [^ )]+ backtracks from the right; offset 0 is
excluded because the run part before Internal must be nonempty). -/
def internalNameScan (r tail : Str) : Nat → Bool
  | 0 => false
  | a + 1 =>
      (match litStrip sInternal (r.drop (a + 1)) with
       | some rem => internalOptsOk rem tail
       | none => false) || internalNameScan r tail a

/-- Whether group 2 onwards matches at the current position (every
character of the name and its optional suffixes lies inside the maximal
[^ )] run, since they are all word characters). -/
def internalG2 (r : Str) : Bool :=
  let run := r.takeWhile notSpParen
  internalNameScan run (r.drop run.length) run.length

/-- The lazy (.*?) of group 1 grows until a space followed by a matching
group 2 is found; returns the lazy middle and the text after group 1. -/
def internalLazy : Str → Str → Option (Str × Str)
  | [], _ => none
  | c :: t, acc =>
      if c = ' ' && internalG2 t then some (acc.reverse, t)
      else internalLazy t (c :: acc)

/-- Leftmost search for the regexp; returns the text before group 1, group
1 itself, and the text after group 1. -/
def internalFind : Str → Option (Str × Str × Str)
  | [] => none
  | c :: cs =>
      match (match litStrip sPublic (c :: cs) with
             | some r0 => internalLazy r0 []
             | none => none) with
      | some (mid, after) => some ([], sPublic ++ mid ++ [' '], after)
      | none =>
          match internalFind cs with
          | some (pre, g1, after) => some (c :: pre, g1, after)
          | none => none

/-- InternalMethodsToInternalVisibility on one line. -/
def internalLine (line : Str) : Str :=
  match internalFind line with
  | some (pre, g1, after) => pre ++ replaceAll sPublic sInternalVis g1 ++ after
  | none => line

/-- InternalMethodsToInternalVisibility.__call__. -/
def internalMethodsToInternalVisibility (s : Str) : Str :=
  joinNL ((splitLinesPy s).map internalLine)

/-! ### swig_post_process.py, class RenameArgsFromSnakeToCamelCase

function_regexp = r"(public.*? )([^ (]+ *\()([^)]+)(\).*\x7b)$"
-/

/-- Character class [^ (]. -/
def notSpLParen (c : Char) : Bool := c ≠ ' ' && c ≠ '('

/-- Groups 2 to 4 of function_regexp at the current position: a name token,
optional spaces, the argument list (nonempty, no ')'), and a close paren on
a line whose last character is an opening brace. -/
def funcG2G3G4 (r : Str) : Option (Str × Str × Str) :=
  let tok := r.takeWhile notSpLParen
  if tok.isEmpty then none else
  let r1 := r.drop tok.length
  let sps := r1.takeWhile (· = ' ')
  match r1.drop sps.length with
  | '(' :: r2 =>
      let args := r2.takeWhile (· ≠ ')')
      if args.isEmpty then none else
      match r2.drop args.length with
      | ')' :: r3 =>
          match r3.getLast? with
          | some '{' => some (tok ++ sps ++ ['('], args, ')' :: r3)
          | _ => none
      | _ => none
  | _ => none

/-- The lazy group-1 middle of function_regexp. -/
def funcLazy : Str → Str → Option (Str × Str × Str × Str)
  | [], _ => none
  | c :: t, acc =>
      if c = ' ' then
        match funcG2G3G4 t with
        | some (g2, g3, g4) => some (acc.reverse, g2, g3, g4)
        | none => funcLazy t (c :: acc)
      else funcLazy t (c :: acc)

/-- Leftmost search for function_regexp; returns the four groups. -/
def funcFind : Str → Option (Str × Str × Str × Str)
  | [] => none
  | c :: cs =>
      match (match litStrip sPublic (c :: cs) with
             | some r0 => funcLazy r0 []
             | none => none) with
      | some (mid, g2, g3, g4) => some (sPublic ++ mid ++ [' '], g2, g3, g4)
      | none => funcFind cs

/-- Python str.split(",") keeping empty pieces. -/
def splitComma : Str → List Str
  | [] => [[]]
  | ',' :: rest => [] :: splitComma rest
  | c :: rest =>
      match splitComma rest with
      | [] => [[c]]
      | l :: ls => (c :: l) :: ls

/-- Python str.split("_") keeping empty pieces. -/
def splitUnderscore : Str → List Str
  | [] => [[]]
  | '_' :: rest => [] :: splitUnderscore rest
  | c :: rest =>
      match splitUnderscore rest with
      | [] => [[c]]
      | l :: ls => (c :: l) :: ls

/-- Index of the last occurrence of a character. -/
def lastIdxAux (c : Char) : Str → Nat → Option Nat
  | [], _ => none
  | d :: ds, i =>
      match lastIdxAux c ds (i + 1) with
      | some j => some j
      | none => if d = c then some i else none

/-- Python str.rfind for a single character. -/
def pyRfindChar (c : Char) (s : Str) : Int :=
  match lastIdxAux c s 0 with
  | some i => (i : Int)
  | none => -1

/-- Python slice s[i:] for a possibly negative i. -/
def pySliceFrom (i : Int) (s : Str) : Str :=
  if i < 0 then s.drop ((s.length + i).toNat) else s.drop i.toNat

/-- Capitalise the first character (Python word[0].upper() + word[1:]). -/
def capWord : Str → Str
  | [] => []
  | c :: cs => c.toUpper :: cs

/-- RenameArgsFromSnakeToCamelCase.snake_to_camel_case: the first chunk is
kept as is, later nonempty chunks are capitalised, empty chunks dropped. -/
def snakeToCamelArgs (ident : Str) : Str :=
  match splitUnderscore ident with
  | [] => []
  | w :: ws => w ++ ((ws.filter (fun x => !x.isEmpty)).map capWord).flatten

/-- Build the substitution for one comma-separated type-and-argument piece:
strip, find the last angle bracket (falling back to the last space), slice
the argument from that index (Python slicing with a possibly negative
index), strip it, and keep the pair only when camel-casing changes it. -/
def argSubstitution (typeArg : Str) : Option (Str × Str) :=
  let t := pyStrip typeArg
  let eGt := pyRfindChar '>' t
  let eIdx := if eGt > 0 then eGt else pyRfindChar ' ' t
  let argument := pyStrip (pySliceFrom eIdx t)
  let camel := snakeToCamelArgs argument
  if argument = camel then none else some (argument, camel)

/-- The substitution list built from group 3 (the argument list). -/
def buildSubs (g3 : Str) : List (Str × Str) :=
  (splitComma g3).filterMap argSubstitution

/-- Word/non-word transition of re \b between two optional characters
(a missing side counts as non-word). -/
def wbBoundary (l r : Option Char) : Bool :=
  (l.elim false isWordChar) != (r.elim false isWordChar)

/-- Substitution of r"(\b)ARG(\b)" by the camel-cased argument: replace
each occurrence of the argument flanked by word boundaries.  The argument
text is interpolated into the regex by the source without quoting; it is
treated literally here, which agrees with re for the metacharacter-free
arguments the generated code contains. -/
def wbReplaceAux (pat rep : Str) : Option Char → Nat → Str → Str
  | _, _, [] => []
  | _, 0, s => s
  | prev, fuel + 1, c :: cs =>
      match litStrip pat (c :: cs) with
      | some rest =>
          if wbBoundary prev pat.head? && wbBoundary pat.getLast? rest.head? then
            rep ++ wbReplaceAux pat rep pat.getLast? fuel rest
          else c :: wbReplaceAux pat rep (some c) fuel cs
      | none => c :: wbReplaceAux pat rep (some c) fuel cs

def wbReplace (pat rep line : Str) : Str :=
  if pat.isEmpty then line else wbReplaceAux pat rep none line.length line

/-- RenameArgsFromSnakeToCamelCase.replace_arguments. -/
def replaceArguments (subs : List (Str × Str)) (line : Str) : Str :=
  subs.foldl (fun l p => wbReplace p.1 p.2 l) line

/-- Rewrite the doc-comment lines directly above a matched function header
(the source walks the output backwards while lines lstrip to a /// start);
the accumulator below is kept reversed, so this walks its front. -/
def backpatchDocs (subs : List (Str × Str)) : List Str → List Str
  | [] => []
  | l :: rest =>
      if startsWithStr (pyLstrip l) sTripleSlash then
        replaceArguments subs l :: backpatchDocs subs rest
      else l :: rest

/-- The per-line loop of RenameArgsFromSnakeToCamelCase.__call__.  Scope is
updated first from the unmodified line, then a function match pushes the
(depth, substitutions) pair and patches preceding doc lines, then a line at
the depth of the oldest stack entry has the substitutions applied while a
line below it pops the newest entry.  The output accumulator is reversed. -/
def snakeLoop : List Str → List (Int × List (Str × Str)) → Int → List Str → List Str
  | [], _, _, acc => acc.reverse
  | line :: rest, stack, scope, acc =>
      let scope1 := scope + (line.count '{' : Int) - (line.count '}' : Int)
      let pushed : List (Int × List (Str × Str)) × List Str :=
        match funcFind line with
        | some (_, _, g3, _) =>
            let subs := buildSubs g3
            let acc1 := if !acc.isEmpty && !subs.isEmpty then backpatchDocs subs acc else acc
            (stack ++ [(scope1, subs)], acc1)
        | none => (stack, acc)
      let lineStack : Str × List (Int × List (Str × Str)) :=
        match pushed.1 with
        | [] => (line, pushed.1)
        | top :: _ =>
            if top.1 = scope1 then (replaceArguments top.2 line, pushed.1)
            else if scope1 < top.1 then (line, pushed.1.dropLast)
            else (line, pushed.1)
      snakeLoop rest lineStack.2 scope1 (lineStack.1 :: pushed.2)

/-- RenameArgsFromSnakeToCamelCase.__call__. -/
def renameArgsFromSnakeToCamelCase (s : Str) : Str :=
  joinNL (snakeLoop (splitLinesPy s) [] 0 [])

/-! ### swig_post_process.py: apply_post_process

The rule objects constructed by main for the C# directory under default
flags, in order.  All six ignore the filename argument, and the only
stateful rule (the enum mapping) never reads its state back, so a rule
application is a function of the text and the iteration number alone. -/

inductive Rule
  | enumPP
  | addPInvoke
  | fixSealed
  | internalVis
  | renameAsync
  | snakeCamel
  deriving DecidableEq

/-- One rule application (SWIGPostProcessingInterface.__call__); none
models an uncaught Python exception. -/
def applyRule (r : Rule) (s : Str) (iteration : Nat) : Option Str :=
  match r with
  | .enumPP => some (swigEnumPostProcessing s).1
  | .addPInvoke => addPInvokeAttribute s iteration
  | .fixSealed => some (fixSealedClasses s)
  | .internalVis => some (internalMethodsToInternalVisibility s)
  | .renameAsync => some (renameAsyncMethods s)
  | .snakeCamel => some (renameArgsFromSnakeToCamelCase s)

/-- One pass of the while loop in apply_post_process: apply each active
rule in order to the evolving text; the surviving set keeps, in order,
exactly the rules whose application changed the text. -/
def runPass (rules : List Rule) (s : Str) (iteration : Nat) :
    Option (Str × List Rule) :=
  match rules with
  | [] => some (s, [])
  | r :: rest =>
      match applyRule r s iteration with
      | none => none
      | some s1 =>
          match runPass rest s1 iteration with
          | none => none
          | some (s2, kept) =>
              if s1 ≠ s then some (s2, r :: kept) else some (s2, kept)

/-- The while loop of apply_post_process with a fuel bound on the number of
passes; a result whose rule list is empty is a genuine fixpoint of the
unbounded source loop, while a nonempty rule list at fuel zero reports the
still-active set after that many passes. -/
def applyLoop : Nat → List Rule → Str → Nat → Option (Str × List Rule)
  | 0, rules, s, _ => some (s, rules)
  | _ + 1, [], s, _ => some (s, [])
  | fuel + 1, rules, s, iteration =>
      match runPass rules s iteration with
      | none => none
      | some (s1, kept) => applyLoop fuel kept s1 (iteration + 1)

/-- apply_post_process(file_buffer, file_name, processes) with the pass
count bounded by fuel and the iteration counter starting at 0. -/
def applyPostProcess (fuel : Nat) (rules : List Rule) (s : Str) :
    Option (Str × List Rule) :=
  applyLoop fuel rules s 0

/-- The rule list main registers for the C# directory with all boolean
flags at their documented defaults and no optional string flags. -/
def mainCsharpRules : List Rule :=
  [Rule.enumPP, Rule.addPInvoke, Rule.fixSealed, Rule.internalVis,
   Rule.renameAsync, Rule.snakeCamel]

/-- Whether the virtual regex matches somewhere on a line. -/
def virtualHas (line : Str) : Bool := scanHas tryVirtual line

/-- Whether the protected regex matches somewhere on a line. -/
def protectedHas (line : Str) : Bool := scanHas tryProtected line

/-- Absence of every trigger pattern of a rule in a text: no regex of the
rule matches anywhere (for the line-based rules, on any splitlines line). -/
def noTrigger (r : Rule) (s : Str) : Bool :=
  match r with
  | .enumPP => !enumHasMatch s
  | .addPInvoke => (splitLinesPy s).all (fun l => (getLineDelegate l).isNone)
  | .fixSealed =>
      (splitLinesPy s).all
        (fun l => !virtualHas l && !protectedHas l && !sealedSearch l)
  | .internalVis => (splitLinesPy s).all (fun l => (internalFind l).isNone)
  | .renameAsync =>
      (splitLinesPy s).all
        (fun l => (scanMatch task1TryAt l).isNone && (scanMatch task2TryAt l).isNone)
  | .snakeCamel => (splitLinesPy s).all (fun l => (funcFind l).isNone)

/-! ### swig_nested_fix.py

The file system is an association list from names to contents, listed in
directory order; reads, writes and removals are recorded as an event trace
so that ordering claims about deletion can be stated. -/

inductive FsEvent
  | read (name : Str)
  | write (name : Str)
  | remove (name : Str)
  deriving DecidableEq

abbrev FS := List (Str × Str)

def fsRead : FS → Str → Option Str
  | [], _ => none
  | (n, c) :: rest, name => if n = name then some c else fsRead rest name

def fsWrite : FS → Str → Str → FS
  | [], name, content => [(name, content)]
  | (n, c) :: rest, name, content =>
      if n = name then (n, content) :: rest else (n, c) :: fsWrite rest name content

def fsRemove : FS → Str → FS
  | [], _ => []
  | (n, c) :: rest, name => if n = name then rest else (n, c) :: fsRemove rest name

/-- The exceptions swig_nested_fix.py can raise (valueError is the
list.remove failure, ioError a failing open). -/
inductive NestedErr
  | namespaceExc
  | targetMismatch
  | targetMissing
  | ioError
  | valueError
  deriving DecidableEq

/-- Index of the first occurrence of a character. -/
def firstIdxOf (c : Char) : Str → Option Nat
  | [] => none
  | d :: ds => if d = c then some 0 else (firstIdxOf c ds).map (· + 1)

/-- Python str.find for a single character (-1 when absent). -/
def pyFindChar (c : Char) (s : Str) : Int :=
  match firstIdxOf c s with
  | some i => (i : Int)
  | none => -1

/-- Clamp a Python slice index to [0, n]. -/
def pyClamp (n : Nat) (i : Int) : Nat :=
  if i < 0 then ((n : Int) + i).toNat else min i.toNat n

/-- Python slice s[i:j] for possibly negative bounds. -/
def pySlice (s : Str) (i j : Int) : Str :=
  (s.take (pyClamp s.length j)).drop (pyClamp s.length i)

/-- Python str.rfind(sub, 0, end) for a single character. -/
def pyRfindCharBound (c : Char) (s : Str) (endB : Int) : Int :=
  pyRfindChar c (pySlice s 0 endB)

def sNamespace : Str := ("namespace").toList

/-- Match of NAMESPACE_RE = r"^\s*namespace\s+(.*)\s+\x7b\s*$" (MULTILINE)
at one line-start position.  The matcher is used only on a prefix that ends
right after the first opening brace of a file (reparent_files searches
file_buffer[:ns_start+1]), so the pattern brace is the final character.
After the namespace literal the first \s+ takes its maximal run (shortening
it only moves the greedy (.*) start onto whitespace it already covers), the
(.*) group extends greedily to the latest point from which pure whitespace
of at least one character reaches the brace, and it cannot cross a newline. -/
def tryNsAt (s : Str) : Option Str :=
  let w := s.takeWhile pyIsSpace
  match litStrip sNamespace (s.drop w.length) with
  | none => none
  | some rest =>
      match rest.getLast? with
      | some '{' =>
          let r := rest.dropLast
          let q := r.length
          let m := (r.takeWhile pyIsSpace).length
          if m = 0 || q < 2 then none else
          let a := min m (q - 1)
          let nl := match firstIdxOf '\n' (r.drop a) with
            | some i => a + i
            | none => q
          let kmax := min nl (q - 1)
          if a ≤ kmax && (r.drop kmax).all pyIsSpace then
            some ((r.drop a).take (kmax - a))
          else none
      | _ => none

/-- re.search of NAMESPACE_RE over the prefix: try every line start (the
leading \s* of a match may itself span earlier blank lines; such a match
yields the same group as the later line start found here). -/
def nsScanLS : Bool → Str → Option Str
  | _, [] => none
  | atStart, c :: cs =>
      match (if atStart then tryNsAt (c :: cs) else none) with
      | some g => some g
      | none => nsScanLS (c = '\n') cs

def nsSearch (p : Str) : Option Str := nsScanLS true p

/-- The namespace handling of reparent_files for one sibling file: when the
prefix up to the first brace declares a namespace, adopt it as the common
namespace if none is recorded (the Python or on an empty, falsy string),
raise NamespaceException on disagreement, and strip the namespace wrapper;
otherwise the whole file is taken as the class. -/
def reparentStep (buf common : Str) : Except NestedErr (Str × Str) :=
  let nsStart := pyFindChar '{' buf
  match nsSearch (pySlice buf 0 (nsStart + 1)) with
  | some nsName =>
      let common1 := if common.isEmpty then nsName else common
      if common1 ≠ nsName then Except.error NestedErr.namespaceExc
      else Except.ok (pySlice buf (nsStart + 1) (pyRfindChar '}' buf), common1)
  | none => Except.ok (buf, common)

/-- The namespace handling of reparent_files for the target file, returning
the position bounding the closing brace search. -/
def reparentTargetStep (targetClass common : Str) : Except NestedErr Int :=
  match nsSearch (pySlice targetClass 0 (pyFindChar '{' targetClass + 1)) with
  | some nsName =>
      let common1 := if common.isEmpty then nsName else common
      if common1 ≠ nsName then Except.error NestedErr.namespaceExc
      else Except.ok (pyRfindChar '}' targetClass)
  | none => Except.ok (targetClass.length : Int)

/-- The sibling-reading loop of reparent_files: read each extra file, check
its namespace against the running common namespace, strip the namespace
wrapper, indent every line by two spaces and accumulate.  Only read events
occur. -/
def reparentLoop (fs : FS) :
    List Str → Str → Str → List FsEvent →
    Except NestedErr (Str × Str) × List FsEvent
  | [], acc, common, tr => (Except.ok (acc, common), tr)
  | f :: rest, acc, common, tr =>
      let tr1 := tr ++ [FsEvent.read f]
      match fsRead fs f with
      | none => (Except.error NestedErr.ioError, tr1)
      | some buf =>
          match reparentStep buf common with
          | Except.error e => (Except.error e, tr1)
          | Except.ok (buf1, common1) =>
              let indented :=
                joinNL ((splitLinesPy buf1).map (fun l => ' ' :: ' ' :: l))
              reparentLoop fs rest (acc ++ indented ++ ['\n']) common1 tr1

/-- reparent_files(target_class_filename, extra_files_list): after the
sibling loop, read the target, re-check its namespace, splice the
accumulated extras before the closing brace of the target class, write the
target, and only then remove every sibling (the cleanup second pass). -/
def reparentFiles (fs : FS) (target : Str) (extras : List Str) :
    Except NestedErr Unit × FS × List FsEvent :=
  match reparentLoop fs extras [] [] [] with
  | (Except.error e, tr) => (Except.error e, fs, tr)
  | (Except.ok (targetExtras, common), tr) =>
      let tr1 := tr ++ [FsEvent.read target]
      match fsRead fs target with
      | none => (Except.error NestedErr.ioError, fs, tr1)
      | some targetClass =>
          match reparentTargetStep targetClass common with
          | Except.error e => (Except.error e, fs, tr1)
          | Except.ok endNsPos =>
              let endClassPos := pyRfindCharBound '}' targetClass endNsPos
              let newTarget := pySlice targetClass 0 endClassPos ++
                targetExtras ++ pySliceFrom endClassPos targetClass
              let fs1 := fsWrite fs target newTarget
              let fs2 := extras.foldl fsRemove fs1
              (Except.ok (), fs2,
               tr1 ++ FsEvent.write target :: extras.map FsEvent.remove)

def sCsproj : Str := (".csproj").toList

def sCsExt : Str := (".cs").toList

def sPINVOKE : Str := ("PINVOKE").toList

def sAssemblyInfoCs : Str := ("AssemblyInfo.cs").toList

/-- os.path.splitext: split at the last dot unless every character before
it is a dot. -/
def pySplitext (f : Str) : Str × Str :=
  match lastIdxAux '.' f 0 with
  | none => (f, [])
  | some i => if (f.take i).all (· = '.') then (f, []) else (f.take i, f.drop i)

/-- The discovery loop of swig_nested_fix.main: the last .csproj stem wins
as target, the last *PINVOKE stem (with PINVOKE cut off) as module. -/
def findNames (files : List Str) : Str × Str :=
  files.foldl
    (fun acc f =>
      let se := pySplitext f
      ((if se.2 = sCsproj then se.1 else acc.1),
       (if endsWithStr se.1 sPINVOKE then se.1.take (se.1.length - 7) else acc.2)))
    ([], [])

/-- Python list.remove: drop the first occurrence or raise ValueError. -/
def removeFirst : List Str → Str → Except NestedErr (List Str)
  | [], _ => Except.error NestedErr.valueError
  | y :: rest, x =>
      if y = x then Except.ok rest
      else (removeFirst rest x).map (fun r => y :: r)

/-- Group ( |\.\S* ) of the PINVOKE class regex: a single space, or a dot,
a maximal run of non-whitespace and a space. -/
def classMid : Str → Option (Str × Str)
  | ' ' :: r => some ([' '], r)
  | '.' :: r =>
      let run := r.takeWhile (fun c => !pyIsSpace c)
      match r.drop run.length with
      | ' ' :: r2 => some ('.' :: (run ++ [' ']), r2)
      | _ => none
  | _ => none

/-- An identifier [a-zA-Z_][a-zA-Z_0-9]*. -/
def identParse : Str → Option (Str × Str)
  | [] => none
  | c :: r =>
      if c.isAlpha || c = '_' then
        let w := r.takeWhile isWordChar
        some (c :: w, r.drop w.length)
      else none

/-- The alternation over moved class names, tried in list order at one
position; on success returns group 1 and the remainder. -/
def classReAlt : List Str → Str → Option (Str × Str)
  | [], _ => none
  | cn :: restNames, s =>
      match
        (match litStrip cn s with
         | some r =>
             match classMid r with
             | some (mid, r2) =>
                 match identParse r2 with
                 | some (ident, r3) => some (cn ++ mid ++ ident, r3)
                 | none => none
             | none => none
         | none => none)
      with
      | some hit => some hit
      | none => classReAlt restNames s

/-- re.sub of class_re with replacement target + "." + group 1. -/
def classReSubAux (classes : List Str) (tgt : Str) : Nat → Str → Str
  | _, [] => []
  | 0, s => s
  | fuel + 1, c :: cs =>
      match classReAlt classes (c :: cs) with
      | some (g1, rest) => tgt ++ '.' :: (g1 ++ classReSubAux classes tgt fuel rest)
      | none => c :: classReSubAux classes tgt fuel cs

def classReSub (classes : List Str) (tgt : Str) (line : Str) : Str :=
  classReSubAux classes tgt line.length line

/-- swig_nested_fix.main on a directory: discover the target and module
names, validate, drop the four bookkeeping files from the list, regroup the
remaining siblings into the target via reparent_files, rewrite the .csproj
project file (dropping lines that mention a moved file) and then rewrite
class references in the PINVOKE file.  The returned trace records every
file-system event in order. -/
def nestedMain (fs : FS) : Except NestedErr Unit × FS × List FsEvent :=
  let files := fs.map Prod.fst
  let names := findNames files
  let targetName := names.1
  let moduleName := names.2
  if targetName.isEmpty then (Except.error NestedErr.targetMissing, fs, [])
  else if moduleName.isEmpty then (Except.error NestedErr.targetMissing, fs, [])
  else if !(decide ((targetName ++ sCsExt) ∈ files)) then
    (Except.error NestedErr.targetMismatch, fs, [])
  else
    match (do
        let f1 ← removeFirst files (targetName ++ sCsproj)
        let f2 ← removeFirst f1 (targetName ++ sCsExt)
        let f3 ← removeFirst f2 (moduleName ++ sPINVOKE ++ sCsExt)
        removeFirst f3 sAssemblyInfoCs) with
    | Except.error e => (Except.error e, fs, [])
    | Except.ok siblings =>
        if siblings.isEmpty then (Except.ok (), fs, [])
        else
          match reparentFiles fs (targetName ++ sCsExt) siblings with
          | (Except.error e, fs1, tr) => (Except.error e, fs1, tr)
          | (Except.ok (), fs1, tr) =>
              let csprojName := targetName ++ sCsproj
              let tr1 := tr ++ [FsEvent.read csprojName]
              match fsRead fs1 csprojName with
              | none => (Except.error NestedErr.ioError, fs1, tr1)
              | some content =>
                  let kept := (linesKeepNL content).filter
                    (fun line => !(siblings.any (fun i => hasSub i line)))
                  let fs2 := fsWrite fs1 csprojName kept.flatten
                  let tr2 := tr1 ++ [FsEvent.write csprojName]
                  let classes := siblings.filterMap
                    (fun f => let se := pySplitext f
                              if se.2 = sCsExt then some se.1 else none)
                  let pinvokeName := moduleName ++ sPINVOKE ++ sCsExt
                  let tr3 := tr2 ++ [FsEvent.read pinvokeName]
                  match fsRead fs2 pinvokeName with
                  | none => (Except.error NestedErr.ioError, fs2, tr3)
                  | some pcontent =>
                      let newP := ((linesKeepNL pcontent).map
                        (classReSub classes targetName)).flatten
                      (Except.ok (), fsWrite fs2 pinvokeName newP,
                       tr3 ++ [FsEvent.write pinvokeName])

/-! ### swig_commenter.py -/

def sDoubleSlash : Str := ("//").toList

def sClass : Str := ("class").toList

def sStructSp : Str := ("struct ").toList

def sNamespaceSp : Str := ("namespace ").toList

def sStaticSp : Str := ("static ").toList

def sStatic : Str := ("static").toList

def sConst : Str := ("const").toList

def sChar : Str := ("char").toList

def sFirebase : Str := ("Firebase").toList

def sPublicSp : Str := ("public ").toList

def sPrivateSpc : Str := ("private ").toList

def sEnumSp : Str := ("enum ").toList

def sSpStringSp : Str := (" string ").toList

def sSpBrace : Str := (" \x7b").toList

def sCloseBraceSemi : Str := ("\x7d;").toList

/-- swig_commenter.snake_case_to_camel_case: capitalise after underscores
and at the start; underscores are dropped. -/
def s2cAux : Bool → Str → Str
  | _, [] => []
  | _, '_' :: rest => s2cAux true rest
  | cap, c :: rest => (if cap then c.toUpper else c) :: s2cAux false rest

def snakeToCamelCommenter (s : Str) : Str := s2cAux true s

/-- swig_commenter.indentation: number of leading whitespace characters. -/
def indentation (line : Str) : Nat := line.length - (pyLstrip line).length

/-- swig_commenter.correct_comment_indentation. -/
def correctCommentIndentation (comment : Str) (indent : Nat) : Str :=
  ((splitLinesPy comment).map
    (fun l => List.replicate indent ' ' ++ pyLstrip l ++ ['\n'])).flatten

/-- CPP_ENUM_DECLARATION_REGEX = r"^\s*enum\s*(?:class\s*)?(\w+)\s*\x7b".
The optional class group is committed greedily and falls back to treating
the class keyword itself as the name when no word follows it. -/
def cppEnumDecl (line : Str) : Option Str :=
  match litStrip sEnum (line.dropWhile pyIsSpace) with
  | none => none
  | some r =>
      let r2 := r.dropWhile pyIsSpace
      let tryName (t : Str) : Option Str :=
        let w := t.takeWhile isWordChar
        if w.isEmpty then none else
        match (t.drop w.length).dropWhile pyIsSpace with
        | '{' :: _ => some w
        | _ => none
      match
        (match litStrip sClass r2 with
         | some rc => tryName (rc.dropWhile pyIsSpace)
         | none => none)
      with
      | some w => some w
      | none => tryName r2

/-- CPP_ENUM_VALUE_IDENTIFIER_REGEX = r"^\s*(\w+).*$" (also the C# one). -/
def enumValueIdent (line : Str) : Option Str :=
  let w := (line.dropWhile pyIsSpace).takeWhile isWordChar
  if w.isEmpty then none else some w

/-- CPP_CLASS_DECLARATION_REGEX = r"^\s*(?:class|struct) (\w+).*$". -/
def cppClassDecl (line : Str) : Option Str :=
  let r := line.dropWhile pyIsSpace
  let tryKw (kw : Str) : Option Str :=
    match litStrip kw r with
    | some rest =>
        let w := rest.takeWhile isWordChar
        if w.isEmpty then none else some w
    | none => none
  match tryKw sClassSp with
  | some w => some w
  | none => tryKw sStructSp

/-- CPP_NAMESPACE_DECLARATION_REGEX = r"^\s*namespace (\w+).*$". -/
def cppNamespaceDecl (line : Str) : Option Str :=
  match litStrip sNamespaceSp (line.dropWhile pyIsSpace) with
  | some rest =>
      let w := rest.takeWhile isWordChar
      if w.isEmpty then none else some w
  | none => none

/-- CPP_GLOBAL_STRING_REGEX =
r"^(?:static )?\s*const\s+char\s*\*\s*(?:const)?\s+(\w+)".  The \s* before
the optional const backtracks: when the optional const is taken it consumes
the whole whitespace run, otherwise at least one whitespace character must
precede the identifier, so the fallback parses from just after the star. -/
def cppGlobalStringFin (t : Str) : Option Str :=
  let sp := t.takeWhile pyIsSpace
  if sp.isEmpty then none else
  let w := (t.drop sp.length).takeWhile isWordChar
  if w.isEmpty then none else some w

def cppGlobalStringCore (r : Str) : Option Str :=
  match litStrip sConst (r.dropWhile pyIsSpace) with
  | none => none
  | some r1 =>
      let sp1 := r1.takeWhile pyIsSpace
      if sp1.isEmpty then none else
      match litStrip sChar (r1.drop sp1.length) with
      | none => none
      | some r2 =>
          match r2.dropWhile pyIsSpace with
          | '*' :: r3 =>
              (match litStrip sConst (r3.dropWhile pyIsSpace) with
               | some t =>
                   match cppGlobalStringFin t with
                   | some w => some w
                   | none => cppGlobalStringFin r3
               | none => cppGlobalStringFin r3)
          | _ => none

def cppGlobalString (line : Str) : Option Str :=
  match litStrip sStaticSp line with
  | some r =>
      match cppGlobalStringCore r with
      | some w => some w
      | none => cppGlobalStringCore line
  | none => cppGlobalStringCore line

/-- The (?:class|struct) SPACE (?:Firebase)?(\w+) tail of
CSHARP_CLASS_DECLARATION_REGEX at one position; the optional Firebase
prefix backtracks to empty when no word character follows it. -/
def csharpClassTryKw (s : Str) : Option Str :=
  let core (rest : Str) : Option Str :=
    match litStrip sFirebase rest with
    | some t2 =>
        let w := t2.takeWhile isWordChar
        if w.isEmpty then
          let w2 := rest.takeWhile isWordChar
          if w2.isEmpty then none else some w2
        else some w
    | none =>
        let w := rest.takeWhile isWordChar
        if w.isEmpty then none else some w
  match litStrip sClassSp s with
  | some rest => core rest
  | none =>
      match litStrip sStructSp s with
      | some rest => core rest
      | none => none

/-- The greedy .* before the keyword selects the rightmost matching
position. -/
def csharpClassScan : Str → Option Str
  | [] => none
  | c :: cs =>
      match csharpClassScan cs with
      | some w => some w
      | none => csharpClassTryKw (c :: cs)

/-- CSHARP_CLASS_DECLARATION_REGEX =
r"^\s*(?:public|private) .*(?:class|struct) (?:Firebase)?(\w+).*$";
a kept trailing newline is dropped first (the anchors and the dot cannot
cross it, and no group can include it). -/
def csharpClassDecl (line : Str) : Option Str :=
  let core := if line.getLast? = some '\n' then line.dropLast else line
  let r := core.dropWhile pyIsSpace
  match
    (match litStrip sPublicSp r with
     | some rest => some rest
     | none => litStrip sPrivateSpc r)
  with
  | some rest => csharpClassScan rest
  | none => none

/-- CSHARP_ENUM_DECLARATION_REGEX = r"^\s*(?:public|private) enum (\w+).*$". -/
def csharpEnumDecl (line : Str) : Option Str :=
  let r := line.dropWhile pyIsSpace
  match
    (match litStrip sPublicSp r with
     | some rest => some rest
     | none => litStrip sPrivateSpc r)
  with
  | some rest =>
      match litStrip sEnumSp rest with
      | some r2 =>
          let w := r2.takeWhile isWordChar
          if w.isEmpty then none else some w
      | none => none
  | none => none

/-- CSHARP_PROPERTY_REGEX = r"public (?:static)? string (\w+) \x7b"
(unanchored; note the literal spaces around the optional static). -/
def csharpPropCore (t : Str) : Option Str :=
  match litStrip sSpStringSp t with
  | none => none
  | some r2 =>
      let w := r2.takeWhile isWordChar
      if w.isEmpty then none else
      match litStrip sSpBrace (r2.drop w.length) with
      | some _ => some w
      | none => none

def csharpPropTryAt (s : Str) : Option Str :=
  match litStrip sPublicSp s with
  | none => none
  | some r =>
      match litStrip sStatic r with
      | some t =>
          match csharpPropCore t with
          | some w => some w
          | none => csharpPropCore r
      | none => csharpPropCore r

def csharpProperty : Str → Option Str
  | [] => none
  | c :: cs =>
      match csharpPropTryAt (c :: cs) with
      | some w => some w
      | none => csharpProperty cs

/-- Dict lookup on an association list (keys are unique by construction). -/
def aget : List (Str × Str) → Str → Option Str
  | [], _ => none
  | (k, v) :: rest, key => if k = key then some v else aget rest key

/-- Dict assignment: replace in place or append (Python dict semantics up
to iteration order, which the source never uses). -/
def aset : List (Str × Str) → Str → Str → List (Str × Str)
  | [], key, v => [(key, v)]
  | (k, w) :: rest, key, v =>
      if k = key then (k, v) :: rest else (k, w) :: aset rest key v

/-- The per-enum record stored in comments["enums"]. -/
structure EnumEntry where
  comment : Str
  values : List (Str × Str)
  deriving DecidableEq

def eget : List (Str × EnumEntry) → Str → Option EnumEntry
  | [], _ => none
  | (k, v) :: rest, key => if k = key then some v else eget rest key

def eset : List (Str × EnumEntry) → Str → EnumEntry → List (Str × EnumEntry)
  | [], key, v => [(key, v)]
  | (k, w) :: rest, key, v =>
      if k = key then (k, v) :: rest else (k, w) :: eset rest key v

/-- Mutation through the most_recent_enum alias: the source mutates the
dict object that comments["enums"][key] also references, so adding a value
updates the entry stored under that key. -/
def evAdd (es : List (Str × EnumEntry)) (key ident v : Str) :
    List (Str × EnumEntry) :=
  match eget es key with
  | some entry => eset es key ⟨entry.comment, aset entry.values ident v⟩
  | none => es

/-- The comments dict of swig_commenter.main. -/
structure Comments where
  classes : List (Str × Str)
  enums : List (Str × EnumEntry)
  properties : List (Str × Str)
  deriving DecidableEq

/-- The scanning state of scan_input_file: the comments dict plus the
running comment block and the name of the enum being read, if any
(most_recent_enum holds a reference to the dict entry; it is modelled by
the enum name, which stays accurate because redeclaring an enum rebinds
both the dict entry and the reference together). -/
structure ScanState where
  comments : Comments
  mostRecentComment : List Str
  mostRecentEnum : Option Str
  deriving DecidableEq

def joinAll (ls : List Str) : Str := ls.flatten

/-- Update the classes dict of a scan state. -/
def scanSetClass (st : ScanState) (cn v : Str) : ScanState :=
  { st with comments :=
      { st.comments with classes := aset st.comments.classes cn v } }

/-- Update the properties dict of a scan state. -/
def scanSetProp (st : ScanState) (pn v : Str) : ScanState :=
  { st with comments :=
      { st.comments with properties := aset st.comments.properties pn v } }

/-- Bind a fresh enum entry and point most_recent_enum at it. -/
def scanSetEnum (st : ScanState) (en : Str) (e : EnumEntry) : ScanState :=
  { st with
    comments := { st.comments with enums := eset st.comments.enums en e },
    mostRecentEnum := some en }

/-- Record one enum value comment through the most_recent_enum alias. -/
def scanAddEnumValue (st : ScanState) (key ident v : Str) : ScanState :=
  { st with comments :=
      { st.comments with enums := evAdd st.comments.enums key ident v } }

/-- One line of scan_input_file: the comment branches accumulate or skip,
then the first matching declaration regex fires, then the per-enum
bookkeeping; any non-comment line clears the running comment block.  The
class branch keeps a previously stored truthy comment (dict.get with an
empty default, then Python or). -/
def scanLine (nsPre : Str) (st : ScanState) (line : Str) : ScanState :=
  if startsWithStr (pyStrip line) sTripleSlash then
    { st with mostRecentComment := st.mostRecentComment ++ [line] }
  else
    let st1 : ScanState :=
      if startsWithStr (pyStrip line) sDoubleSlash then st
      else
        match cppClassDecl line with
        | some cn =>
            let old := (aget st.comments.classes cn).getD []
            scanSetClass st cn
              (if old.isEmpty then joinAll st.mostRecentComment else old)
        | none =>
        match cppNamespaceDecl line with
        | some nn =>
            scanSetClass st (nsPre ++ snakeToCamelCommenter nn)
              (joinAll st.mostRecentComment)
        | none =>
        match cppEnumDecl line with
        | some en =>
            scanSetEnum st en ⟨joinAll st.mostRecentComment, []⟩
        | none =>
        match cppGlobalString line with
        | some pn =>
            scanSetProp st pn (joinAll st.mostRecentComment)
        | none =>
            if st.mostRecentEnum.isSome && hasSub sCloseBraceSemi line then
              { st with mostRecentEnum := none }
            else
              match st.mostRecentEnum with
              | some key =>
                  match enumValueIdent line with
                  | some ident =>
                      scanAddEnumValue st key ident (joinAll st.mostRecentComment)
                  | none => st
              | none => st
    { st1 with mostRecentComment := [] }

/-- scan_input_file over a whole file content; the running comment and enum
are local to one file. -/
def scanInputFile (nsPre : Str) (cm : Comments) (content : Str) : Comments :=
  ((linesKeepNL content).foldl (scanLine nsPre)
    ⟨cm, [], none⟩).comments

/-- Python "a or b" over the two falsy-aware class-comment lookups. -/
def orFalsy (a b : Option Str) : Option Str :=
  match a with
  | some s => if s.isEmpty then b else some s
  | none => b

/-- The writing state of process_output_file. -/
structure OutState where
  mostRecentEnum : Option EnumEntry
  out : Str

/-- One line of process_output_file: inside an enum, value identifiers get
their stored comment written above (when truthy) and a brace line leaves
enum mode; outside, a class, enum, or property declaration gets its comment
block written above, re-indented to the line's indentation. -/
def processLine (cm : Comments) (st : OutState) (line : Str) : OutState :=
  match st.mostRecentEnum with
  | some entry =>
      match enumValueIdent line with
      | some ident =>
          let add := match aget entry.values ident with
            | some c =>
                if c.isEmpty then [] else
                correctCommentIndentation c (indentation line)
            | none => []
          { st with out := st.out ++ add ++ line }
      | none =>
          if line.contains '}' then ⟨none, st.out ++ line⟩
          else { st with out := st.out ++ line }
  | none =>
      match csharpClassDecl line with
      | some cn =>
          let add := match orFalsy (aget cm.classes cn)
              (aget cm.classes (sFirebase ++ cn)) with
            | some c =>
                if c.isEmpty then [] else
                correctCommentIndentation c (indentation line)
            | none => []
          { st with out := st.out ++ add ++ line }
      | none =>
      match csharpEnumDecl line with
      | some en =>
          match eget cm.enums en with
          | some entry =>
              ⟨some entry,
               st.out ++ correctCommentIndentation entry.comment (indentation line)
                 ++ line⟩
          | none => { st with out := st.out ++ line }
      | none =>
      match csharpProperty line with
      | some pn =>
          let add := match aget cm.properties pn with
            | some c =>
                if c.isEmpty then [] else
                correctCommentIndentation c (indentation line)
            | none => []
          { st with out := st.out ++ add ++ line }
      | none => { st with out := st.out ++ line }

/-- process_output_file on a whole file content, returning the rewritten
content. -/
def processOutputFile (cm : Comments) (content : Str) : Str :=
  ((linesKeepNL content).foldl (processLine cm) ⟨none, []⟩).out

/-- swig_commenter.main over input file contents and output file contents
(files abstracted to their contents; the namespace_prefix flag defaults to
the empty string). -/
def commenterRun (nsPre : Str) (inputs outputs : List Str) : List Str :=
  let cm := inputs.foldl (scanInputFile nsPre) ⟨[], [], []⟩
  outputs.map (processOutputFile cm)

/-! ## Helper lemmas -/

theorem litStrip_self (p s : Str) : litStrip p (p ++ s) = some s := by
  induction p with
  | nil => rfl
  | cons c cs ih => simp [litStrip, ih]

theorem litStrip_mem {p s r : Str} (h : litStrip p s = some r) :
    ∀ c ∈ p, c ∈ s := by
  induction p generalizing s with
  | nil => simp
  | cons d ds ih =>
      cases s with
      | nil => simp [litStrip] at h
      | cons e es =>
          simp only [litStrip] at h
          split at h
          · next heq =>
              intro c hc
              rcases List.mem_cons.mp hc with h1 | h1
              · subst h1; subst heq; exact List.mem_cons_self _ _
              · exact List.mem_cons_of_mem _ (ih h c h1)
          · exact absurd h (by simp)

theorem takeWhile_append_all {p : Char → Bool} {l : Str} (r : Str)
    (h : ∀ a ∈ l, p a = true) :
    (l ++ r).takeWhile p = l ++ r.takeWhile p := by
  induction l with
  | nil => simp
  | cons c cs ih =>
      have hc : p c = true := h c (List.mem_cons_self _ _)
      simp [List.takeWhile, hc, ih (fun a ha => h a (List.mem_cons_of_mem _ ha))]

theorem dropWhile_append_all {p : Char → Bool} {l : Str} (r : Str)
    (h : ∀ a ∈ l, p a = true) :
    (l ++ r).dropWhile p = r.dropWhile p := by
  induction l with
  | nil => simp
  | cons c cs ih =>
      have hc : p c = true := h c (List.mem_cons_self _ _)
      simp [List.dropWhile, hc, ih (fun a ha => h a (List.mem_cons_of_mem _ ha))]

theorem takeWhile_nil_of_head {p : Char → Bool} {c : Char} (l : Str)
    (h : p c = false) : (c :: l).takeWhile p = [] := by
  simp [List.takeWhile, h]

theorem scanSub_id {tryAt : Str → Option (Str × Str)} {s : Str}
    (h : scanHas tryAt s = false) : ∀ fuel, scanSub tryAt fuel s = s := by
  induction s with
  | nil => intro fuel; cases fuel <;> rfl
  | cons c cs ih =>
      intro fuel
      simp only [scanHas, Bool.or_eq_false_iff] at h
      have hnone : tryAt (c :: cs) = none :=
        Option.not_isSome_iff_eq_none.mp (by simp [h.1])
      cases fuel with
      | zero => rfl
      | succ n =>
          simp only [scanSub, hnone]
          exact congrArg (c :: ·) (ih h.2 n)

/-! ## Claims -/

/-- Input for the convergence counterexamples: a line matching the
SWIGStringDelegate search string of AddPInvokeAttribute. -/
def c1Input : Str := ("  static string CreateString").toList

/-- The output of the first full apply_post_process run on c1Input. -/
def c1Once : Str :=
  ("  [MonoPInvokeCallback(typeof(SWIGStringDelegate))]\n  static string CreateString").toList

/-- The output of a second fresh apply_post_process run on c1Once: the
attribute has been inserted a second time. -/
def c1Twice : Str :=
  ("  [MonoPInvokeCallback(typeof(SWIGStringDelegate))]\n  [MonoPInvokeCallback(typeof(SWIGStringDelegate))]\n  static string CreateString").toList

/-- Claim C1, counterexample.  Running apply_post_process with the rule
list of main (fresh instances, iteration restarting at 0) on the output of
a first run is not the identity: AddPInvokeAttribute matches the delegate
line again on iteration 0 of the second run and inserts a second attribute
line above the already annotated delegate.  Both runs genuinely converge
(the returned active set is empty). -/
theorem c1_counterexample :
    applyPostProcess 10 mainCsharpRules c1Input = some (c1Once, []) ∧
    applyPostProcess 10 mainCsharpRules c1Once = some (c1Twice, []) ∧
    c1Twice ≠ c1Once := by
  refine ⟨by decide, by decide, by decide⟩

/-- Claim C1, amended.  Within a single run the AddPInvokeAttribute rule
acts only on iteration 0: on every later iteration it returns the text
unchanged, so one run never inserts the attribute twice; idempotence fails
only across runs, where the iteration counter restarts at 0. -/
theorem c1_amended (s : Str) (it : Nat) (h : it ≠ 0) :
    applyRule Rule.addPInvoke s it = some s := by
  simp [applyRule, addPInvokeAttribute, h]

theorem c1_amended_witness :
    applyRule Rule.addPInvoke c1Once 1 = some c1Once :=
  c1_amended c1Once 1 (by decide)

/-- A file with one enum declaration and a textual use of the old member
name outside the enum body. -/
def c2Input : Str :=
  (" enum InitResult \x7b\n  kInitResultSuccess = 0\n\x7d;\nint x = kInitResultSuccess;").toList

/-- Claim C2, evaluation at the failing input.  SWIGEnumPostProcessing
renames the member inside the enum body and records the old-to-new pair in
enum_mapping, but the use of kInitResultSuccess outside the enum body is
left untouched: no code in the repository ever reads enum_mapping back, so
the reference fix-up the mapping is documented to serve does not happen. -/
theorem c2_code_evaluation :
    (swigEnumPostProcessing c2Input).1 =
      (" enum InitResult \x7b\n  Success = 0\n\x7d;\nint x = kInitResultSuccess;").toList ∧
    ((("kInitResultSuccess").toList, ("Success").toList) ∈
      (swigEnumPostProcessing c2Input).2) ∧
    hasSub (("kInitResultSuccess").toList) (swigEnumPostProcessing c2Input).1 = true := by
  refine ⟨by decide, by decide, by decide⟩

/-- Claim C7, counterexample.  With the singleton rule list
[AddPInvokeAttribute] (n = 1) on a delegate line, the rule changes the text
in pass 0 and therefore survives the pass: after n = 1 passes the active
set is still nonempty, and the loop needs a second pass (in which the
iteration guard makes the rule a no-op) before the active set empties. -/
theorem c7_counterexample :
    runPass [Rule.addPInvoke] c1Input 0 = some (c1Once, [Rule.addPInvoke]) ∧
    applyLoop 1 [Rule.addPInvoke] c1Input 0 = some (c1Once, [Rule.addPInvoke]) ∧
    applyLoop 2 [Rule.addPInvoke] c1Input 0 = some (c1Once, []) := by
  refine ⟨by decide, by decide, by decide⟩

/-- Claim C7, amended.  Each pass preserves the relative order of the
rules it keeps: the surviving active set is a sublist of the rule list, and
it holds exactly the rules that changed the text during the pass, so a pass
on a text that is a fixed point of every active rule empties the active set
and returns the text unchanged.  The pass count, however, is not bounded by
the number of rules: a rule that keeps changing the text survives. -/
theorem c7_amended (rules : List Rule) (s : Str) (it : Nat) (out : Str)
    (kept : List Rule) (h : runPass rules s it = some (out, kept)) :
    kept.Sublist rules ∧
      ((∀ r ∈ rules, applyRule r s it = some s) → out = s ∧ kept = []) := by
  induction rules generalizing s out kept with
  | nil =>
      simp only [runPass, Option.some.injEq, Prod.mk.injEq] at h
      exact ⟨h.2 ▸ List.Sublist.refl _, fun _ => ⟨h.1.symm, h.2.symm⟩⟩
  | cons r rest ih =>
      cases hr : applyRule r s it with
      | none => simp [runPass, hr] at h
      | some s1 =>
          cases hrest : runPass rest s1 it with
          | none => simp [runPass, hr, hrest] at h
          | some p =>
              obtain ⟨s2, kept2⟩ := p
              simp only [runPass, hr, hrest] at h
              by_cases hch : s1 = s
              · have hrest2 : runPass rest s it = some (s2, kept2) := hch ▸ hrest
                rw [if_neg (not_not_intro hch)] at h
                simp only [Option.some.injEq, Prod.mk.injEq] at h
                obtain ⟨ho, hk⟩ := h
                subst ho; subst hk
                obtain ⟨ihs, ihfix⟩ := ih _ _ _ hrest2
                exact ⟨ihs.cons _,
                  fun hfix => ihfix (fun q hq => hfix q (List.mem_cons_of_mem _ hq))⟩
              · rw [if_pos hch] at h
                simp only [Option.some.injEq, Prod.mk.injEq] at h
                obtain ⟨ho, hk⟩ := h
                subst ho; subst hk
                obtain ⟨ihs, _⟩ := ih _ _ _ hrest
                refine ⟨ihs.cons₂ _, fun hfix => ?_⟩
                have h1 : applyRule r s it = some s :=
                  hfix r (List.mem_cons_self _ _)
                rw [hr] at h1
                exact absurd (Option.some.inj h1) hch

theorem enumScan_id {s : Str} (h : enumHasMatch s = false) :
    ∀ fuel, enumScan fuel s = (s, []) := by
  induction s with
  | nil => intro fuel; cases fuel <;> rfl
  | cons c cs ih =>
      intro fuel
      simp only [enumHasMatch, Bool.or_eq_false_iff] at h
      have hnone : tryEnumAt (c :: cs) = none :=
        Option.not_isSome_iff_eq_none.mp (by simp [h.1])
      cases fuel with
      | zero => rfl
      | succ n => simp [enumScan, hnone, ih h.2 n]

theorem pinvokeLines_id {lines : List Str}
    (h : ∀ l ∈ lines, getLineDelegate l = none) :
    lines.mapM pinvokeLine = some (lines.map (fun l => [l])) := by
  induction lines with
  | nil => rfl
  | cons l ls ih =>
      have h1 : pinvokeLine l = some [l] := by
        simp [pinvokeLine, h l (List.mem_cons_self _ _)]
      rw [List.mapM_cons, h1, ih (fun x hx => h x (List.mem_cons_of_mem _ hx))]
      rfl

theorem flatten_map_singleton (l : List Str) :
    (l.map (fun x => [x])).flatten = l := by
  induction l with
  | nil => rfl
  | cons x xs ih => simp [ih]

theorem map_id_of_mem {f : Str → Str} {l : List Str}
    (h : ∀ x ∈ l, f x = x) : l.map f = l := by
  induction l with
  | nil => rfl
  | cons x xs ih =>
      simp [h x (List.mem_cons_self _ _),
        ih (fun y hy => h y (List.mem_cons_of_mem _ hy))]

theorem fixSealedLoop_id {lines : List Str}
    (h : ∀ l ∈ lines, sealedSearch l = false) :
    ∀ scope, fixSealedLoop lines [] scope = lines := by
  induction lines with
  | nil => intro _; rfl
  | cons l ls ih =>
      intro scope
      simp only [fixSealedLoop, h l (List.mem_cons_self _ _), if_false,
        Bool.false_eq_true]
      exact congrArg (l :: ·)
        (ih (fun x hx => h x (List.mem_cons_of_mem _ hx)) _)

theorem snakeLoop_id {lines : List Str}
    (h : ∀ l ∈ lines, funcFind l = none) :
    ∀ scope acc, snakeLoop lines [] scope acc = acc.reverse ++ lines := by
  induction lines with
  | nil => intro scope acc; simp [snakeLoop]
  | cons l ls ih =>
      intro scope acc
      simp only [snakeLoop, h l (List.mem_cons_self _ _)]
      rw [ih (fun x hx => h x (List.mem_cons_of_mem _ hx))]
      simp

/-- Claim C3, counterexample.  FixSealedClasses applied to a text that ends
with a newline and contains none of its trigger patterns still changes the
text: the rule rebuilds the file with a newline join over str.splitlines,
which drops the trailing newline. -/
theorem c3_counterexample :
    noTrigger Rule.fixSealed (("hello\n").toList) = true ∧
    applyRule Rule.fixSealed (("hello\n").toList) 0 = some (("hello").toList) ∧
    (("hello").toList : Str) ≠ ("hello\n").toList := by
  refine ⟨by decide, by decide, by decide⟩

/-- Claim C3, amended.  For every rule in the pipeline main constructs and
every input text that contains none of the trigger patterns of that rule
and is in normalised line form (rejoining its splitlines reproduces it
byte-identically, which excludes trailing newlines and bare carriage
returns), applying the rule returns the text byte-identical. -/
theorem c3_amended : ∀ r ∈ mainCsharpRules, ∀ (s : Str) (it : Nat),
    joinNL (splitLinesPy s) = s → noTrigger r s = true →
    applyRule r s it = some s := by
  intro r hr s it hnorm htrig
  fin_cases hr
  · simp only [noTrigger, Bool.not_eq_true'] at htrig
    simp [applyRule, swigEnumPostProcessing, enumScan_id htrig]
  · by_cases hit : it = 0
    · subst hit
      simp only [noTrigger, List.all_eq_true] at htrig
      have hall : ∀ l ∈ splitLinesPy s, getLineDelegate l = none :=
        fun l hl => Option.isNone_iff_eq_none.mp (htrig l hl)
      show addPInvokeAttribute s 0 = some s
      unfold addPInvokeAttribute
      rw [if_neg (by simp), pinvokeLines_id hall]
      simp [flatten_map_singleton, hnorm]
    · simp [applyRule, addPInvokeAttribute, hit]
  · simp only [noTrigger, List.all_eq_true, Bool.and_eq_true,
      Bool.not_eq_true'] at htrig
    have hseal : ∀ l ∈ splitLinesPy s, sealedSearch l = false :=
      fun l hl => (htrig l hl).2
    simp [applyRule, fixSealedClasses, fixSealedLoop_id hseal, hnorm]
  · simp only [noTrigger, List.all_eq_true] at htrig
    have hmap : (splitLinesPy s).map internalLine = splitLinesPy s :=
      map_id_of_mem (fun l hl => by
        simp [internalLine, Option.isNone_iff_eq_none.mp (htrig l hl)])
    simp [applyRule, internalMethodsToInternalVisibility, hmap, hnorm]
  · simp only [noTrigger, List.all_eq_true, Bool.and_eq_true] at htrig
    have hmap : (splitLinesPy s).map renameAsyncLine = splitLinesPy s :=
      map_id_of_mem (fun l hl => by
        simp [renameAsyncLine,
          Option.isNone_iff_eq_none.mp (htrig l hl).1,
          Option.isNone_iff_eq_none.mp (htrig l hl).2])
    simp [applyRule, renameAsyncMethods, hmap, hnorm]
  · simp only [noTrigger, List.all_eq_true] at htrig
    have hall : ∀ l ∈ splitLinesPy s, funcFind l = none :=
      fun l hl => Option.isNone_iff_eq_none.mp (htrig l hl)
    simp [applyRule, renameArgsFromSnakeToCamelCase, snakeLoop_id hall, hnorm]

/-- Whether an event is a file read. -/
def isRead : FsEvent → Bool
  | .read _ => true
  | _ => false

/-- The ordering property claimed for container regrouping: every remove
event in the trace is preceded by a write of the given file. -/
def noRemoveBeforeWriteAux (w : Str) : Bool → List FsEvent → Bool
  | _, [] => true
  | seen, FsEvent.remove _ :: rest => seen && noRemoveBeforeWriteAux w seen rest
  | seen, FsEvent.write n :: rest =>
      noRemoveBeforeWriteAux w (seen || decide (n = w)) rest
  | seen, FsEvent.read _ :: rest => noRemoveBeforeWriteAux w seen rest

def noRemoveBeforeWrite (w : Str) (tr : List FsEvent) : Bool :=
  noRemoveBeforeWriteAux w false tr

theorem nrbwAux_true (w : Str) : ∀ l, noRemoveBeforeWriteAux w true l = true := by
  intro l
  induction l with
  | nil => rfl
  | cons e rest ih => cases e <;> simp [noRemoveBeforeWriteAux, ih]

theorem nrbwAux_reads (w : Str) {tr : List FsEvent}
    (h : ∀ e ∈ tr, isRead e = true) :
    ∀ seen l, noRemoveBeforeWriteAux w seen (tr ++ l) =
      noRemoveBeforeWriteAux w seen l := by
  induction tr with
  | nil => simp
  | cons e rest ih =>
      intro seen l
      have he := h e (List.mem_cons_self _ _)
      cases e with
      | read n =>
          simp only [List.cons_append, noRemoveBeforeWriteAux]
          exact ih (fun x hx => h x (List.mem_cons_of_mem _ hx)) seen l
      | write n => simp [isRead] at he
      | remove n => simp [isRead] at he

theorem reparentLoop_reads (fs : FS) :
    ∀ (extras : List Str) (acc common : Str) (tr : List FsEvent),
      (∀ e ∈ tr, isRead e = true) →
      ∀ e ∈ (reparentLoop fs extras acc common tr).2, isRead e = true := by
  intro extras
  induction extras with
  | nil => intro acc common tr h e he; exact h e he
  | cons f rest ih =>
      intro acc common tr h e he
      have htr1 : ∀ x ∈ tr ++ [FsEvent.read f], isRead x = true := by
        intro x hx
        rcases List.mem_append.mp hx with h1 | h1
        · exact h x h1
        · simp only [List.mem_singleton] at h1; subst h1; rfl
      cases hread : fsRead fs f with
      | none =>
          simp only [reparentLoop, hread] at he
          exact htr1 e he
      | some buf =>
          cases hstep : reparentStep buf common with
          | error err =>
              simp only [reparentLoop, hread, hstep] at he
              exact htr1 e he
          | ok p =>
              obtain ⟨buf1, common1⟩ := p
              simp only [reparentLoop, hread, hstep] at he
              exact ih _ _ _ htr1 e he

/-- The directory used for the regrouping counterexample: a project file, a
target class, the PINVOKE module file, the assembly info file, and one
sibling class to be regrouped. -/
def fsC4 : FS :=
  [(("App.csproj").toList,
    ("<Compile Include=\"App.cs\" />\n<Compile Include=\"Goodies.cs\" />\n").toList),
   (("App.cs").toList,
    ("namespace Firebase \x7b\npublic class App \x7b\n  int y;\n\x7d\n\x7d\n").toList),
   (("AppPINVOKE.cs").toList,
    ("  public static void do_it(Goodies arg) \x7b\n").toList),
   (("AssemblyInfo.cs").toList, ("x\n").toList),
   (("Goodies.cs").toList,
    ("namespace Firebase \x7b\npublic class Goodies \x7b\n  int x;\n\x7d\n\x7d\n").toList)]

/-- Claim C4, counterexample.  On a successful run of the regrouping
pipeline, the sibling file Goodies.cs is removed from disk inside
reparent_files, before main has rewritten the references in the PINVOKE
entry-point file: the trace contains a remove event with no earlier write
of AppPINVOKE.cs. -/
theorem c4_counterexample :
    (nestedMain fsC4).1 = Except.ok () ∧
    noRemoveBeforeWrite (("AppPINVOKE.cs").toList) (nestedMain fsC4).2.2 = false ∧
    noRemoveBeforeWrite (("App.cs").toList) (nestedMain fsC4).2.2 = true := by
  refine ⟨by rfl, by decide, by decide⟩

/-- Claim C4, amended.  Sibling deletion waits only for the merge: in every
run of reparent_files (on any file system, target and sibling list), every
remove event in the trace is preceded by the write of the target file, and
a run that raises performs no removal at all; the rewrite of the PINVOKE
file happens in main only after reparent_files has already deleted the
siblings. -/
theorem c4_amended (fs : FS) (target : Str) (extras : List Str) :
    noRemoveBeforeWrite target (reparentFiles fs target extras).2.2 = true := by
  cases hloop : reparentLoop fs extras [] [] [] with
  | mk res tr =>
      have htr : ∀ e ∈ tr, isRead e = true := by
        have := reparentLoop_reads fs extras [] [] [] (by simp)
        rw [hloop] at this
        exact this
      have htr1 : ∀ x ∈ tr ++ [FsEvent.read target], isRead x = true := by
        intro x hx
        rcases List.mem_append.mp hx with h1 | h1
        · exact htr x h1
        · simp only [List.mem_singleton] at h1; subst h1; rfl
      cases res with
      | error e =>
          simp only [reparentFiles, hloop]
          unfold noRemoveBeforeWrite
          rw [← List.append_nil tr, nrbwAux_reads target htr]
          rfl
      | ok p =>
          obtain ⟨targetExtras, common⟩ := p
          cases hread : fsRead fs target with
          | none =>
              simp only [reparentFiles, hloop, hread]
              unfold noRemoveBeforeWrite
              rw [← List.append_nil (tr ++ [FsEvent.read target]),
                nrbwAux_reads target htr1]
              rfl
          | some targetClass =>
              cases hstep : reparentTargetStep targetClass common with
              | error e =>
                  simp only [reparentFiles, hloop, hread, hstep]
                  unfold noRemoveBeforeWrite
                  rw [← List.append_nil (tr ++ [FsEvent.read target]),
                    nrbwAux_reads target htr1]
                  rfl
              | ok endNsPos =>
                  simp only [reparentFiles, hloop, hread, hstep]
                  unfold noRemoveBeforeWrite
                  rw [nrbwAux_reads target htr1]
                  simp only [noRemoveBeforeWriteAux]
                  simpa using nrbwAux_true target (extras.map FsEvent.remove)

/-- The per-line rewrite FixSealedClasses applies inside a sealed scope:
the virtual substitution followed by the protected substitution. -/
def modLine (l : Str) : Str := protectedSub (virtualSub l)

/-- A file with a sealed class and a non-sealed class holding identically
named members, where the closing brace of the sealed class shares a line
with the header of the non-sealed class. -/
def c6Input : Str :=
  ("sealed class A \x7b\n  virtual void M();\n\x7d class B \x7b\n  virtual void M();\n\x7d").toList

/-- Claim C6, counterexample.  On c6Input the rule strips the virtual
modifier from the member of the non-sealed class B as well: the line
closing the sealed class also opens class B, so the brace count returns to
the recorded depth while the stale stack entry of class A is still live,
and line 4 (the member of B) is rewritten. -/
theorem c6_counterexample :
    fixSealedClasses c6Input =
      ("sealed class A \x7b\n  void M();\n\x7d class B \x7b\n  void M();\n\x7d").toList ∧
    (splitLinesPy c6Input).getD 3 [] = ("  virtual void M();").toList ∧
    (splitLinesPy (fixSealedClasses c6Input)).getD 3 [] = ("  void M();").toList := by
  refine ⟨by decide, by decide, by decide⟩

def c6HdrA : Str := ("public sealed class A \x7b").toList

def c6HdrB : Str := ("public class B \x7b").toList

theorem fixSealedLoop_seg_mod (rest : List Str) (k : Int) {body : List Str}
    (h : ∀ l ∈ body, (modLine l).count '{' = 0 ∧ (modLine l).count '}' = 0 ∧
      sealedSearch (modLine l) = false) :
    fixSealedLoop (body ++ rest) [k] k =
      body.map modLine ++ fixSealedLoop rest [k] k := by
  induction body with
  | nil => rfl
  | cons l ls ih =>
      obtain ⟨hb1, hb2, hs⟩ := h l (List.mem_cons_self _ _)
      simp only [modLine] at hb1 hb2 hs
      have ih2 := ih (fun x hx => h x (List.mem_cons_of_mem _ hx))
      simp [fixSealedLoop, hb1, hb2, hs, modLine]
      simpa [modLine] using ih2

theorem fixSealedLoop_seg_id (rest : List Str) (sc : Int) {body : List Str}
    (h : ∀ l ∈ body, l.count '{' = 0 ∧ l.count '}' = 0 ∧ sealedSearch l = false) :
    fixSealedLoop (body ++ rest) [] sc = body ++ fixSealedLoop rest [] sc := by
  induction body with
  | nil => rfl
  | cons l ls ih =>
      obtain ⟨hb1, hb2, hs⟩ := h l (List.mem_cons_self _ _)
      have ih2 := ih (fun x hx => h x (List.mem_cons_of_mem _ hx))
      simp [fixSealedLoop, hb1, hb2, hs]
      simpa using ih2

/-- Claim C6, amended.  Scope isolation holds for well-bracketed input: for
a file made of a sealed class block followed by a non-sealed class block,
each header and each closing brace on its own line and the member lines
free of braces and of sealed-class headers (also after rewriting), the rule
rewrites exactly the sealed body lines (removing virtual and demoting
protected fields) and returns every member line of the non-sealed class
unchanged.  The unrestricted claim fails when a closing brace and the next
class header share a line, as the counterexample shows. -/
theorem c6_amended (body1 body2 : List Str)
    (h1 : ∀ l ∈ body1, (modLine l).count '{' = 0 ∧ (modLine l).count '}' = 0 ∧
      sealedSearch (modLine l) = false)
    (h2 : ∀ l ∈ body2, l.count '{' = 0 ∧ l.count '}' = 0 ∧ sealedSearch l = false) :
    fixSealedLoop (c6HdrA :: (body1 ++ ['}'] :: c6HdrB :: (body2 ++ [['}']]))) [] 0 =
      c6HdrA :: (body1.map modLine ++ ['}'] :: c6HdrB :: (body2 ++ [['}']])) := by
  have stepA : ∀ X, fixSealedLoop (c6HdrA :: X) [] 0 =
      c6HdrA :: fixSealedLoop X [1] 1 := fun X => by
    simp [fixSealedLoop,
      show sealedSearch c6HdrA = true from by decide,
      show c6HdrA.count '{' = 1 from by decide,
      show c6HdrA.count '}' = 0 from by decide]
  have stepBrace : ∀ Y, fixSealedLoop (['}'] :: Y) [1] 1 =
      ['}'] :: fixSealedLoop Y [1] 0 := fun Y => by
    simp [fixSealedLoop,
      show protectedSub (virtualSub ['}']) = ['}'] from by decide,
      show sealedSearch ['}'] = false from by decide,
      show (['}'] : Str).count '{' = 0 from by decide,
      show (['}'] : Str).count '}' = 1 from by decide]
  have stepB : ∀ Z, fixSealedLoop (c6HdrB :: Z) [1] 0 =
      c6HdrB :: fixSealedLoop Z [] 1 := fun Z => by
    simp [fixSealedLoop,
      show sealedSearch c6HdrB = false from by decide,
      show c6HdrB.count '{' = 1 from by decide,
      show c6HdrB.count '}' = 0 from by decide]
  rw [stepA, fixSealedLoop_seg_mod _ _ h1, stepBrace, stepB,
    fixSealedLoop_seg_id _ _ h2]
  rfl

theorem c6_amended_witness :
    fixSealedLoop (c6HdrA :: (([("  virtual void M();").toList] ++ ['}'] ::
        c6HdrB :: ([("  virtual void M();").toList] ++ [['}']])))) [] 0 =
      c6HdrA :: (([("  virtual void M();").toList].map modLine ++ ['}'] ::
        c6HdrB :: ([("  virtual void M();").toList] ++ [['}']]))) :=
  c6_amended [("  virtual void M();").toList] [("  virtual void M();").toList]
    (by decide) (by decide)

/-- A directory whose sibling files disagree on their namespace. -/
def fsC5 : FS :=
  [(("App.cs").toList,
    ("namespace Firebase \x7b\npublic class App \x7b\n\x7d\n\x7d\n").toList),
   (("A.cs").toList, ("namespace Firebase \x7b\nclass A \x7b\n\x7d\n\x7d\n").toList),
   (("B.cs").toList, ("namespace Other \x7b\nclass B \x7b\n\x7d\n\x7d\n").toList)]

/-- Claim C5, confirmed.  Whenever reparent_files raises
NamespaceException (a sibling or the target disagrees with the recorded
common namespace), the file system is exactly as before the call: the
target is unwritten, every sibling still exists with its original content,
and the trace up to the raise holds only read events. -/
theorem c5_reparent_atomic (fs : FS) (target : Str) (extras : List Str)
    (fs2 : FS) (tr : List FsEvent)
    (h : reparentFiles fs target extras =
      (Except.error NestedErr.namespaceExc, fs2, tr)) :
    fs2 = fs ∧ ∀ e ∈ tr, isRead e = true := by
  cases hloop : reparentLoop fs extras [] [] [] with
  | mk res trL =>
      have htrL : ∀ e ∈ trL, isRead e = true := by
        have := reparentLoop_reads fs extras [] [] [] (by simp)
        rw [hloop] at this
        exact this
      have htr1 : ∀ x ∈ trL ++ [FsEvent.read target], isRead x = true := by
        intro x hx
        rcases List.mem_append.mp hx with h1 | h1
        · exact htrL x h1
        · simp only [List.mem_singleton] at h1; subst h1; rfl
      cases res with
      | error e =>
          simp only [reparentFiles, hloop, Prod.mk.injEq] at h
          exact ⟨h.2.1.symm, h.2.2 ▸ htrL⟩
      | ok p =>
          obtain ⟨targetExtras, common⟩ := p
          cases hread : fsRead fs target with
          | none =>
              simp only [reparentFiles, hloop, hread, Prod.mk.injEq] at h
              exact absurd h.1.symm (by simp)
          | some targetClass =>
              cases hstep : reparentTargetStep targetClass common with
              | error e =>
                  simp only [reparentFiles, hloop, hread, hstep,
                    Prod.mk.injEq] at h
                  exact ⟨h.2.1.symm, h.2.2 ▸ htr1⟩
              | ok endNsPos =>
                  simp only [reparentFiles, hloop, hread, hstep,
                    Prod.mk.injEq] at h
                  exact absurd h.1.symm (by simp)

theorem c5_reparent_atomic_witness :
    fsC5 = fsC5 ∧
      ∀ e ∈ [FsEvent.read (("A.cs").toList), FsEvent.read (("B.cs").toList)],
        isRead e = true :=
  c5_reparent_atomic fsC5 (("App.cs").toList)
    [("A.cs").toList, ("B.cs").toList] fsC5
    [FsEvent.read (("A.cs").toList), FsEvent.read (("B.cs").toList)]
    (by rfl)

/-! Lemmas for claim C9: behaviour of RenameAsyncMethods on a canonical
Task-returning declaration line with a symbolic method name. -/

/-- Group 1 of the plain-Task regex on the canonical line. -/
def taskG1 : Str := ("  System.Threading.Tasks.Task ").toList

/-- Group 3 of the plain-Task regex on the canonical line. -/
def taskG3 : Str := ("() \x7b").toList

/-- A canonical Task-returning method declaration line. -/
def mkTaskLine (name : Str) : Str := taskG1 ++ name ++ taskG3

theorem isWordChar_ne_space {c : Char} (h : isWordChar c = true) : c ≠ ' ' := by
  intro hc
  subst hc
  exact absurd h (by decide)

theorem litStrip_none_of_not_mem {pat x : Str} {c : Char} (hc : c ∈ pat)
    (hx : c ∉ x) : litStrip pat x = none := by
  cases hlit : litStrip pat x with
  | none => rfl
  | some r => exact absurd (litStrip_mem hlit c hc) hx

theorem task1Find_none {s : Str} (h : '<' ∉ s) :
    scanMatch task1TryAt s = none := by
  induction s with
  | nil => rfl
  | cons c cs ih =>
      have hdrop : '<' ∉ (c :: cs).drop ((c :: cs).takeWhile (· = ' ')).length :=
        fun hm => h (List.drop_subset _ _ hm)
      have h1 : task1TryAt (c :: cs) = none := by
        unfold task1TryAt
        by_cases hsp : (((c :: cs)).takeWhile (· = ' ')).isEmpty
        · simp [hsp]
        · simp [hsp, litStrip_none_of_not_mem (show '<' ∈ sTaskLt from by decide) hdrop]
      simp [scanMatch, h1, ih (fun hm => h (List.mem_cons_of_mem _ hm))]

theorem task2TryAt_mk {name : Str} (hne : name ≠ [])
    (hw : ∀ ch ∈ name, isWordChar ch = true) :
    task2TryAt (mkTaskLine name) = some (taskG1, name, taskG3) := by
  obtain ⟨c0, nm, rfl⟩ : ∃ c0 nm, name = c0 :: nm := by
    cases name with
    | nil => exact absurd rfl hne
    | cons a b => exact ⟨a, b, rfl⟩
  have hc0 : c0 ≠ ' ' := isWordChar_ne_space (hw c0 (List.mem_cons_self _ _))
  have hsp : (mkTaskLine (c0 :: nm)).takeWhile (· = ' ') = [' ', ' '] := rfl
  have hdrop2 : (mkTaskLine (c0 :: nm)).drop 2 =
      sTask ++ (' ' :: ((c0 :: nm) ++ taskG3)) := rfl
  have hsp2 : ((' ' :: ((c0 :: nm) ++ taskG3))).takeWhile (· = ' ') = [' '] := by
    simp [List.takeWhile, hc0]
  have hname : (((c0 :: nm) ++ taskG3)).takeWhile isWordChar = c0 :: nm := by
    rw [takeWhile_append_all taskG3 hw,
      show List.takeWhile isWordChar taskG3 = [] from rfl, List.append_nil]
  have hdropn : (((c0 :: nm) ++ taskG3)).drop (c0 :: nm).length = taskG3 :=
    List.drop_left _ _
  simp only [task2TryAt, hsp, List.isEmpty_cons, Bool.false_eq_true, if_false,
    List.length_cons, List.length_nil, Nat.zero_add, Nat.reduceAdd, hdrop2,
    litStrip_self, hsp2, List.drop_one, List.tail_cons, hname]
  have hdropn2 : List.drop (nm.length + 1) ((c0 :: nm) ++ taskG3) = taskG3 := by
    rw [show nm.length + 1 = (c0 :: nm).length from rfl]
    exact List.drop_left _ _
  rw [hdropn2, show parenTail taskG3 = some taskG3 from rfl]
  rfl

theorem scanMatch_head {tryAt : Str → Option (Str × Str × Str)} {s g1 g2 g3 : Str}
    (hs : s ≠ []) (h : tryAt s = some (g1, g2, g3)) :
    scanMatch tryAt s = some ([], g1, g2, g3) := by
  cases s with
  | nil => exact absurd rfl hs
  | cons c cs => simp [scanMatch, h]

theorem endsWith_self_append (a p : Str) : endsWithStr (a ++ p) p = true := by
  unfold endsWithStr
  rw [List.reverse_append, litStrip_self]
  rfl

theorem endsWith_dep_async (stem : Str) :
    endsWithStr (stem ++ sDep) sAsync = false := by
  unfold endsWithStr
  rw [List.reverse_append]
  rfl

theorem endsWith_dep_asyncdep (stem : Str) :
    endsWithStr (stem ++ sDep) sAsyncDep = endsWithStr stem sAsync := by
  unfold endsWithStr
  rw [List.reverse_append]
  rfl

theorem endsWith_asyncdep_async (stem : Str) :
    endsWithStr (stem ++ sAsyncDep) sAsync = false := by
  unfold endsWithStr
  rw [List.reverse_append]
  rfl

theorem replaceAllAux_no_us {s : Str} (h : '_' ∉ s) (rep : Str) :
    ∀ fuel, replaceAllAux sDepAsync rep fuel s = s := by
  induction s with
  | nil => intro fuel; cases fuel <;> rfl
  | cons c cs ih =>
      intro fuel
      have hc : c ≠ '_' := fun hh => h (hh ▸ List.mem_cons_self _ _)
      have hlit : litStrip sDepAsync (c :: cs) = none := by
        rw [show sDepAsync = '_' :: ("DEPRECATEDAsync").toList from rfl]
        simp [litStrip, Ne.symm hc]
      cases fuel with
      | zero => rfl
      | succ n =>
          simp [replaceAllAux, hlit,
            ih (fun hm => h (List.mem_cons_of_mem _ hm)) n]

theorem replaceAllAux_at_pat {b : Str} (hb : '_' ∉ b) :
    ∀ fuel, 1 ≤ fuel →
      replaceAllAux sDepAsync sAsyncDep fuel (sDepAsync ++ b) = sAsyncDep ++ b := by
  intro fuel hf
  cases fuel with
  | zero => omega
  | succ n =>
      show sAsyncDep ++ replaceAllAux sDepAsync sAsyncDep n b = sAsyncDep ++ b
      rw [replaceAllAux_no_us hb _ n]

theorem replaceAllAux_cons_none {pat rep : Str} {c : Char} {cs : Str} (n : Nat)
    (h : litStrip pat (c :: cs) = none) :
    replaceAllAux pat rep (n + 1) (c :: cs) = c :: replaceAllAux pat rep n cs := by
  simp [replaceAllAux, h]

theorem replaceAll_key {b : Str} (hb : '_' ∉ b) :
    ∀ (a : Str), '_' ∉ a → ∀ fuel, a.length + 1 ≤ fuel →
      replaceAllAux sDepAsync sAsyncDep fuel (a ++ (sDepAsync ++ b)) =
        a ++ (sAsyncDep ++ b) := by
  intro a
  induction a with
  | nil =>
      intro _ fuel hf
      simpa using replaceAllAux_at_pat hb fuel (by omega)
  | cons c cs ih =>
      intro ha fuel hf
      have hc : c ≠ '_' := fun hh => ha (hh ▸ List.mem_cons_self _ _)
      have hlit : litStrip sDepAsync (c :: (cs ++ (sDepAsync ++ b))) = none := by
        rw [show sDepAsync = '_' :: ("DEPRECATEDAsync").toList from rfl]
        simp [litStrip, Ne.symm hc]
      cases fuel with
      | zero => omega
      | succ n =>
          simp only [List.length_cons] at hf
          simp only [List.cons_append]
          rw [replaceAllAux_cons_none n hlit,
            ih (fun hm => ha (List.mem_cons_of_mem _ hm)) n (by omega)]

theorem replaceAll_mid {a b : Str} (ha : '_' ∉ a) (hb : '_' ∉ b) :
    replaceAll sDepAsync sAsyncDep (a ++ (sDepAsync ++ b)) = a ++ (sAsyncDep ++ b) := by
  unfold replaceAll
  rw [if_neg (by decide)]
  apply replaceAll_key hb a ha
  have h16 : sDepAsync.length = 16 := by decide
  simp [List.length_append, h16]
  omega

/-- Claim C9, confirmed.  On a canonical Task-returning declaration line
with method name built from a word-character stem (no underscore, not
ending in Async), RenameAsyncMethods renames STEM_DEPRECATED to
STEMAsync_DEPRECATED, inserting Async before the suffix rather than
appending it at the end, and leaves names ending in Async, names ending in
Async_DEPRECATED, and the name GetTask unchanged. -/
theorem c9_rename_async (stem : Str) (h1 : stem ≠ [])
    (h2 : ∀ ch ∈ stem, isWordChar ch = true)
    (h3 : endsWithStr stem sAsync = false) (h4 : '_' ∉ stem) :
    renameAsyncLine (mkTaskLine (stem ++ sDep)) = mkTaskLine (stem ++ sAsyncDep) ∧
    renameAsyncLine (mkTaskLine (stem ++ sAsync)) = mkTaskLine (stem ++ sAsync) ∧
    renameAsyncLine (mkTaskLine (stem ++ sAsyncDep)) =
      mkTaskLine (stem ++ sAsyncDep) ∧
    renameAsyncLine (mkTaskLine sGetTask) = mkTaskLine sGetTask := by
  have hG1len : taskG1.length = 30 := by decide
  have hmk_ne : ∀ fn : Str, mkTaskLine fn ≠ [] := by
    intro fn hnil
    have hlen := congrArg List.length hnil
    rw [mkTaskLine, List.length_append, List.length_append, hG1len,
      show taskG3.length = 4 from by decide, List.length_nil] at hlen
    omega
  have hwOf : ∀ (suffix : Str), (∀ ch ∈ suffix, isWordChar ch = true) →
      ∀ ch ∈ stem ++ suffix, isWordChar ch = true := by
    intro suffix hsuf ch hch
    rcases List.mem_append.mp hch with h | h
    · exact h2 ch h
    · exact hsuf ch h
  have hlt : ∀ (fn : Str), (∀ ch ∈ fn, isWordChar ch = true) →
      '<' ∉ mkTaskLine fn := by
    intro fn hw hm
    rw [mkTaskLine] at hm
    rcases List.mem_append.mp hm with h | h
    · rcases List.mem_append.mp h with h | h
      · exact absurd h (by decide)
      · exact absurd (hw '<' h) (by decide)
    · exact absurd h (by decide)
  have hline : ∀ (fn : Str), fn ≠ [] → (∀ ch ∈ fn, isWordChar ch = true) →
      renameAsyncLine (mkTaskLine fn) = asyncRewrite [] taskG1 fn taskG3 := by
    intro fn hne hw
    unfold renameAsyncLine
    rw [task1Find_none (hlt fn hw),
      scanMatch_head (hmk_ne fn) (task2TryAt_mk hne hw)]
  have hwDep : ∀ ch ∈ stem ++ sDep, isWordChar ch = true :=
    hwOf sDep (by decide)
  have hwAsync : ∀ ch ∈ stem ++ sAsync, isWordChar ch = true :=
    hwOf sAsync (by decide)
  have hwAsyncDep : ∀ ch ∈ stem ++ sAsyncDep, isWordChar ch = true :=
    hwOf sAsyncDep (by decide)
  have hne2 : ∀ sfx : Str, stem ++ sfx ≠ [] := by
    intro sfx h
    cases stem with
    | nil => exact absurd rfl h1
    | cons a b => exact absurd h (by simp)
  refine ⟨?_, ?_, ?_, by decide⟩
  · rw [hline _ (hne2 sDep) hwDep]
    unfold asyncRewrite
    have hget : (decide (stem ++ sDep = sGetTask)) = false := by
      apply decide_eq_false
      intro h
      have hl := congrArg List.length h
      rw [List.length_append, show sDep.length = 11 from by decide,
        show sGetTask.length = 7 from by decide] at hl
      omega
    rw [endsWith_dep_async, endsWith_dep_asyncdep, h3, hget]
    simp only [Bool.or_self, Bool.or_false, Bool.false_or, Bool.false_eq_true,
      if_false]
    rw [endsWith_self_append]
    simp only [if_true, if_pos rfl]
    have haUs : '_' ∉ taskG1 ++ stem := by
      intro hm
      rcases List.mem_append.mp hm with h | h
      · exact absurd h (by decide)
      · exact h4 h
    have hbUs : '_' ∉ taskG3 := by decide
    have hassoc : ([] : Str) ++ taskG1 ++ (stem ++ sDep) ++ sAsync ++ taskG3 =
        (taskG1 ++ stem) ++ (sDepAsync ++ taskG3) := by
      rw [show sDepAsync = sDep ++ sAsync from rfl]
      simp [List.append_assoc]
    rw [hassoc, replaceAll_mid haUs hbUs, mkTaskLine]
    simp [List.append_assoc]
  · rw [hline _ (hne2 sAsync) hwAsync]
    unfold asyncRewrite
    rw [endsWith_self_append]
    simp [mkTaskLine, List.append_assoc]
  · rw [hline _ (hne2 sAsyncDep) hwAsyncDep]
    unfold asyncRewrite
    rw [endsWith_asyncdep_async, endsWith_self_append]
    simp [mkTaskLine, List.append_assoc]

theorem c9_rename_async_witness :
    (("Foo").toList : Str) ≠ [] ∧
    renameAsyncLine (mkTaskLine (("Foo").toList ++ sDep)) =
      mkTaskLine (("Foo").toList ++ sAsyncDep) :=
  ⟨by decide,
    (c9_rename_async (("Foo").toList) (by decide) (by decide)
      (by decide) (by decide)).1⟩

theorem c3_amended_witness :
    applyRule Rule.renameAsync (("hello").toList) 0 = some (("hello").toList) :=
  c3_amended Rule.renameAsync (by decide) (("hello").toList) 0
    (by decide) (by decide)

/-! Lemmas for claim C10: update behaviour of the class-comment index. -/

theorem aget_aset_self (m : List (Str × Str)) (k v : Str) :
    aget (aset m k v) k = some v := by
  induction m with
  | nil => simp [aset, aget]
  | cons p rest ih =>
      obtain ⟨a, b⟩ := p
      by_cases hak : a = k
      · subst hak
        simp [aset, aget]
      · simp [aset, aget, hak, ih]

theorem litStrip_eq_append {p s r : Str} (h : litStrip p s = some r) :
    s = p ++ r := by
  induction p generalizing s with
  | nil =>
      simp only [litStrip, Option.some.injEq] at h
      simpa using h
  | cons c cs ih =>
      cases s with
      | nil => exact absurd h (by simp [litStrip])
      | cons d ds =>
          simp only [litStrip] at h
          split at h
          · next heq =>
              subst heq
              exact congrArg (List.cons c) (ih h)
          · exact absurd h (by simp)

theorem cppClassDecl_none_of_ns {line nn : Str}
    (h : cppNamespaceDecl line = some nn) : cppClassDecl line = none := by
  cases hlit : litStrip sNamespaceSp (List.dropWhile pyIsSpace line) with
  | none => simp [cppNamespaceDecl, hlit] at h
  | some rest =>
      simp only [cppClassDecl]
      rw [litStrip_eq_append hlit]
      rfl

/-- Claim C10, confirmed.  In the comment index built by scan_input_file,
class-declaration entries are first-non-empty-wins: processing a
class-declaration line for a name already mapped to a non-empty comment
leaves the stored comment unchanged (so an undocumented forward
declaration never overwrites it), while a namespace-declaration line
overwrites the entry for its derived class name unconditionally with the
current comment block. -/
theorem c10_comment_index (nsPre : Str) (st : ScanState) (line : Str)
    (hsl : startsWithStr (pyStrip line) sTripleSlash = false)
    (hdl : startsWithStr (pyStrip line) sDoubleSlash = false) :
    (∀ cn v, cppClassDecl line = some cn →
      aget st.comments.classes cn = some v → v ≠ [] →
      aget (scanLine nsPre st line).comments.classes cn = some v) ∧
    (∀ nn, cppNamespaceDecl line = some nn →
      aget (scanLine nsPre st line).comments.classes
          (nsPre ++ snakeToCamelCommenter nn) =
        some (joinAll st.mostRecentComment)) := by
  constructor
  · intro cn v hcd hget hv
    have hvE : v.isEmpty = false := by
      cases v with
      | nil => exact absurd rfl hv
      | cons x xs => rfl
    simp [scanLine, hsl, hdl, hcd, hget, hvE, scanSetClass, aget_aset_self]
  · intro nn hns
    have hcd : cppClassDecl line = none := cppClassDecl_none_of_ns hns
    simp [scanLine, hsl, hdl, hcd, hns, scanSetClass, aget_aset_self]

/-! Fixtures and lemmas for claim C8: comment propagation round trip. -/

/-- A Doxygen comment line with body x (kept newline included). -/
def c8L (x : Str) : Str := '/' :: '/' :: '/' :: ' ' :: (x ++ ['\n'])

/-- Upstream C++ file: a three-line doc block followed by the class. -/
def c8Up (a b c : Str) : Str :=
  c8L a ++ (c8L b ++ (c8L c ++ ("class Widget \x7b\n").toList))

/-- Downstream generated file: the declaration line at indentation n. -/
def c8Down (n : Nat) : Str :=
  List.replicate n ' ' ++ ("public class Widget \x7b\n").toList

/-- The comment index scan_input_file builds from c8Up. -/
def c8Cm (a b c : Str) : Comments :=
  ⟨[((("Widget").toList : Str), c8L a ++ (c8L b ++ c8L c))], [], []⟩

/-- The re-indented comment block process_output_file inserts. -/
def c8Cmt (n : Nat) (a b c : Str) : Str :=
  (List.replicate n ' ' ++ c8L a) ++
    ((List.replicate n ' ' ++ c8L b) ++ (List.replicate n ' ' ++ c8L c))

theorem linesKeepNLAux_break {x : Str} (hx : '\n' ∉ x) :
    ∀ (acc y : Str),
      linesKeepNLAux (x ++ '\n' :: y) acc =
        (acc.reverse ++ (x ++ ['\n'])) :: linesKeepNLAux y [] := by
  induction x with
  | nil =>
      intro acc y
      simp [linesKeepNLAux]
  | cons c cs ih =>
      intro acc y
      have hc : c ≠ '\n' := fun h => hx (h ▸ List.mem_cons_self _ _)
      have hcs : '\n' ∉ cs := fun h => hx (List.mem_cons_of_mem _ h)
      rw [List.cons_append]
      simp [linesKeepNLAux, hc, ih hcs, List.append_assoc]

theorem linesKeepNL_break {x : Str} (hx : '\n' ∉ x) (y : Str) :
    linesKeepNL (x ++ '\n' :: y) = (x ++ ['\n']) :: linesKeepNL y := by
  simpa [linesKeepNL] using linesKeepNLAux_break hx [] y

set_option maxHeartbeats 4000000 in
theorem splitLinesAux_step {c : Char} (w acc : Str) (hcr : c ≠ '\r')
    (hc : isLineBreak c = false) :
    splitLinesAux (c :: w) acc = splitLinesAux w (c :: acc) := by
  simp [splitLinesAux, hcr, hc]

theorem splitLinesAux_break {x : Str} (hx : ∀ ch ∈ x, isLineBreak ch = false) :
    ∀ (acc y : Str),
      splitLinesAux (x ++ '\n' :: y) acc =
        (acc.reverse ++ x) :: splitLinesAux y [] := by
  induction x with
  | nil =>
      intro acc y
      simp only [List.nil_append, List.append_nil]
      exact rfl
  | cons c cs ih =>
      intro acc y
      have hc : isLineBreak c = false := hx c (List.mem_cons_self _ _)
      have hcr : c ≠ '\r' := by
        intro h; rw [h] at hc; exact absurd hc (by decide)
      have hcs : ∀ ch ∈ cs, isLineBreak ch = false :=
        fun ch h => hx ch (List.mem_cons_of_mem _ h)
      rw [List.cons_append, splitLinesAux_step _ _ hcr hc, ih hcs (c :: acc)]
      simp [List.append_assoc]

theorem splitLinesPy_break {x : Str} (hx : ∀ ch ∈ x, isLineBreak ch = false)
    (y : Str) : splitLinesPy (x ++ '\n' :: y) = x :: splitLinesPy y := by
  simpa [splitLinesPy] using splitLinesAux_break hx [] y

theorem pyRstrip_slash3 (r : Str) :
    pyRstrip ('/' :: '/' :: '/' :: r) = '/' :: '/' :: '/' :: pyRstrip r := by
  unfold pyRstrip
  rw [show ('/' :: '/' :: '/' :: r).reverse = r.reverse ++ ['/', '/', '/'] from by
        simp]
  rw [List.dropWhile_append]
  by_cases h : (r.reverse.dropWhile pyIsSpace).isEmpty
  · rw [if_pos h, List.isEmpty_iff.mp h]
    exact rfl
  · rw [if_neg h]
    simp

theorem pyLstrip_nonws {c : Char} (hc : pyIsSpace c = false) (t : Str) :
    pyLstrip (c :: t) = c :: t := by
  simp [pyLstrip, List.dropWhile_cons, hc]

theorem tripleSlash_starts (r : Str) :
    startsWithStr (pyStrip ('/' :: '/' :: '/' :: r)) sTripleSlash = true := by
  unfold pyStrip
  rw [pyRstrip_slash3, pyLstrip_nonws (by decide)]
  simp [startsWithStr,
    show litStrip sTripleSlash ('/' :: '/' :: '/' :: pyRstrip r) =
      some (pyRstrip r) from rfl]

theorem scanLine_comment (nsPre : Str) (st : ScanState) (r : Str) :
    scanLine nsPre st ('/' :: '/' :: '/' :: r) =
      { st with mostRecentComment :=
          st.mostRecentComment ++ ['/' :: '/' :: '/' :: r] } := by
  simp [scanLine, tripleSlash_starts]

theorem scanLine_decl (st : ScanState) (line cn : Str)
    (h1 : startsWithStr (pyStrip line) sTripleSlash = false)
    (h2 : startsWithStr (pyStrip line) sDoubleSlash = false)
    (h3 : cppClassDecl line = some cn)
    (h : aget st.comments.classes cn = none) :
    scanLine [] st line =
      { st with
          comments := { st.comments with
            classes := aset st.comments.classes cn
              (joinAll st.mostRecentComment) },
          mostRecentComment := [] } := by
  simp [scanLine, h1, h2, h3, h, scanSetClass]

theorem c8_head_nb {a : Str} (ha : ∀ ch ∈ a, isLineBreak ch = false) :
    ∀ ch ∈ ('/' :: '/' :: '/' :: ' ' :: a), isLineBreak ch = false := by
  intro ch hch
  simp only [List.mem_cons] at hch
  rcases hch with h | h | h | h | h
  · subst h; decide
  · subst h; decide
  · subst h; decide
  · subst h; decide
  · exact ha ch h

theorem c8_nn_of_nb {a : Str} (ha : ∀ ch ∈ a, isLineBreak ch = false) :
    '\n' ∉ a :=
  fun h => absurd (ha _ h) (by decide)

theorem c8_head_nn {x : Str} (hx : '\n' ∉ x) :
    '\n' ∉ ('/' :: '/' :: '/' :: ' ' :: x) := by
  intro h
  simp only [List.mem_cons] at h
  rcases h with h | h | h | h | h
  · exact absurd h (by decide)
  · exact absurd h (by decide)
  · exact absurd h (by decide)
  · exact absurd h (by decide)
  · exact hx h

theorem c8_ind_nn {x : Str} (hx : '\n' ∉ x) (n : Nat) :
    '\n' ∉ (List.replicate n ' ' ++ ('/' :: '/' :: '/' :: ' ' :: x)) := by
  intro h
  rcases List.mem_append.mp h with h | h
  · exact absurd (List.eq_of_mem_replicate h) (by decide)
  · simp only [List.mem_cons] at h
    rcases h with h | h | h | h | h
    · exact absurd h (by decide)
    · exact absurd h (by decide)
    · exact absurd h (by decide)
    · exact absurd h (by decide)
    · exact hx h

theorem c8_scan (a b c : Str)
    (ha : ∀ ch ∈ a, isLineBreak ch = false)
    (hb : ∀ ch ∈ b, isLineBreak ch = false)
    (hc : ∀ ch ∈ c, isLineBreak ch = false) :
    scanInputFile [] ⟨[], [], []⟩ (c8Up a b c) = c8Cm a b c := by
  have hlines : linesKeepNL (c8Up a b c) =
      [c8L a, c8L b, c8L c, ("class Widget \x7b\n").toList] := by
    have hsplit : ∀ (x w : Str), '\n' ∉ x →
        linesKeepNL (c8L x ++ w) = c8L x :: linesKeepNL w := by
      intro x w hx
      rw [show c8L x ++ w =
            ('/' :: '/' :: '/' :: ' ' :: x) ++ '\n' :: w from by
          simp [c8L]]
      rw [linesKeepNL_break (c8_head_nn hx) w]
      simp [c8L, List.append_assoc]
    rw [show c8Up a b c = c8L a ++ (c8L b ++ (c8L c ++
          (("class Widget \x7b\n").toList))) from rfl]
    rw [hsplit a _ (c8_nn_of_nb ha), hsplit b _ (c8_nn_of_nb hb),
      hsplit c _ (c8_nn_of_nb hc)]
    rfl
  unfold scanInputFile
  rw [hlines]
  simp only [List.foldl_cons, List.foldl_nil]
  rw [show (c8L a) = '/' :: '/' :: '/' :: (' ' :: (a ++ ['\n'])) from rfl,
    scanLine_comment,
    show (c8L b) = '/' :: '/' :: '/' :: (' ' :: (b ++ ['\n'])) from rfl,
    scanLine_comment,
    show (c8L c) = '/' :: '/' :: '/' :: (' ' :: (c ++ ['\n'])) from rfl,
    scanLine_comment,
    scanLine_decl _ _ (("Widget").toList) (by decide) (by decide) (by decide)
      (by rfl)]
  simp [c8Cm, c8L, aset, joinAll, List.append_assoc]

theorem c8_ws (n : Nat) : ∀ a ∈ List.replicate n ' ', pyIsSpace a = true := by
  intro a ha
  rw [List.eq_of_mem_replicate ha]
  decide

theorem c8_classDecl (n : Nat) :
    csharpClassDecl (c8Down n) = some (("Widget").toList) := by
  rw [show c8Down n =
        (List.replicate n ' ' ++ ("public class Widget \x7b").toList) ++
          ['\n'] from by rw [c8Down, List.append_assoc]; rfl]
  simp only [csharpClassDecl, List.getLast?_concat, List.dropLast_concat]
  rw [if_pos trivial, dropWhile_append_all _ (c8_ws n)]
  decide

theorem c8_indent (n : Nat) : indentation (c8Down n) = n := by
  unfold indentation c8Down pyLstrip
  rw [dropWhile_append_all _ (c8_ws n)]
  rw [show (("public class Widget \x7b\n").toList).dropWhile pyIsSpace =
        ("public class Widget \x7b\n").toList from by decide]
  simp only [List.length_append, List.length_replicate]
  omega

theorem c8_down_lines (n : Nat) : linesKeepNL (c8Down n) = [c8Down n] := by
  have hnn : '\n' ∉
      (List.replicate n ' ' ++ ("public class Widget \x7b").toList) := by
    intro h
    rcases List.mem_append.mp h with h | h
    · exact absurd (List.eq_of_mem_replicate h) (by decide)
    · exact absurd h (by decide)
  rw [show c8Down n =
        (List.replicate n ' ' ++ ("public class Widget \x7b").toList) ++
          '\n' :: ([] : Str) from by rw [c8Down, List.append_assoc]; rfl]
  rw [linesKeepNL_break hnn []]
  rfl

theorem c8_cd_none (x : Str) (n : Nat) :
    csharpClassDecl (List.replicate n ' ' ++ c8L x) = none := by
  rw [show List.replicate n ' ' ++ c8L x =
        (List.replicate n ' ' ++ ('/' :: '/' :: '/' :: ' ' :: x)) ++
          ['\n'] from by simp [c8L, List.append_assoc]]
  simp only [csharpClassDecl, List.getLast?_concat, List.dropLast_concat]
  rw [if_pos trivial, dropWhile_append_all _ (c8_ws n)]
  rfl

theorem c8_ed_none (x : Str) (n : Nat) :
    csharpEnumDecl (List.replicate n ' ' ++ c8L x) = none := by
  simp only [csharpEnumDecl]
  rw [dropWhile_append_all _ (c8_ws n)]
  rfl

theorem csharpPropCore_none {z : Str} (h : '\x7b' ∉ z) :
    csharpPropCore z = none := by
  unfold csharpPropCore
  cases hl : litStrip sSpStringSp z with
  | none => simp [hl]
  | some r2 =>
      have hr2 : '\x7b' ∉ r2 := fun hm =>
        h (by rw [litStrip_eq_append hl]; exact List.mem_append_right _ hm)
      have hbr : litStrip sSpBrace
          (r2.drop (r2.takeWhile isWordChar).length) = none :=
        litStrip_none_of_not_mem (show '\x7b' ∈ sSpBrace from by decide)
          (fun hm => hr2 (List.drop_subset _ _ hm))
      simp [hl, hbr]

theorem csharpPropTryAt_none {s : Str} (h : '\x7b' ∉ s) :
    csharpPropTryAt s = none := by
  unfold csharpPropTryAt
  cases hl : litStrip sPublicSp s with
  | none => simp [hl]
  | some r =>
      have hr : '\x7b' ∉ r := fun hm =>
        h (by rw [litStrip_eq_append hl]; exact List.mem_append_right _ hm)
      cases hl2 : litStrip sStatic r with
      | none => simp [hl, hl2, csharpPropCore_none hr]
      | some t =>
          have ht : '\x7b' ∉ t := fun hm =>
            hr (by rw [litStrip_eq_append hl2]; exact List.mem_append_right _ hm)
          simp [hl, hl2, csharpPropCore_none ht, csharpPropCore_none hr]

theorem csharpProperty_none {s : Str} (h : '\x7b' ∉ s) :
    csharpProperty s = none := by
  induction s with
  | nil => rfl
  | cons c cs ih =>
      simp [csharpProperty, csharpPropTryAt_none h,
        ih (fun hm => h (List.mem_cons_of_mem _ hm))]

theorem c8_line_no_brace {x : Str} (hx : '\x7b' ∉ x) (n : Nat) :
    '\x7b' ∉ (List.replicate n ' ' ++ c8L x) := by
  intro h
  rcases List.mem_append.mp h with h | h
  · exact absurd (List.eq_of_mem_replicate h) (by decide)
  · simp only [c8L, List.mem_cons] at h
    rcases h with h | h | h | h | h
    · exact absurd h (by decide)
    · exact absurd h (by decide)
    · exact absurd h (by decide)
    · exact absurd h (by decide)
    · rcases List.mem_append.mp h with h | h
      · exact hx h
      · simp only [List.mem_singleton] at h
        exact absurd h (by decide)

theorem processLine_pass (cm : Comments) (o : Str) (line : Str)
    (hcd : csharpClassDecl line = none) (hed : csharpEnumDecl line = none)
    (hp : csharpProperty line = none) :
    processLine cm ⟨none, o⟩ line = ⟨none, o ++ line⟩ := by
  simp [processLine, hcd, hed, hp]

theorem processLine_decl (cm : Comments) (o : Str) (line cn v : Str)
    (hcd : csharpClassDecl line = some cn)
    (hget : aget cm.classes cn = some v) (hv : v.isEmpty = false) :
    processLine cm ⟨none, o⟩ line =
      ⟨none, o ++ (correctCommentIndentation v (indentation line) ++ line)⟩ := by
  simp [processLine, hcd, hget, orFalsy, hv, List.append_assoc]

theorem c8_cci (a b c : Str) (n : Nat)
    (ha : ∀ ch ∈ a, isLineBreak ch = false)
    (hb : ∀ ch ∈ b, isLineBreak ch = false)
    (hc : ∀ ch ∈ c, isLineBreak ch = false) :
    correctCommentIndentation (c8L a ++ (c8L b ++ c8L c)) n = c8Cmt n a b c := by
  have hsplit : splitLinesPy (c8L a ++ (c8L b ++ c8L c)) =
      [('/' :: '/' :: '/' :: ' ' :: a), ('/' :: '/' :: '/' :: ' ' :: b),
        ('/' :: '/' :: '/' :: ' ' :: c)] := by
    rw [show c8L a ++ (c8L b ++ c8L c) =
          ('/' :: '/' :: '/' :: ' ' :: a) ++ '\n' :: (c8L b ++ c8L c) from by
        simp [c8L, List.append_assoc]]
    rw [splitLinesPy_break (c8_head_nb ha)]
    rw [show c8L b ++ c8L c =
          ('/' :: '/' :: '/' :: ' ' :: b) ++ '\n' :: (c8L c) from by
        simp [c8L, List.append_assoc]]
    rw [splitLinesPy_break (c8_head_nb hb)]
    rw [show c8L c =
          ('/' :: '/' :: '/' :: ' ' :: c) ++ '\n' :: ([] : Str) from by
        simp [c8L]]
    rw [splitLinesPy_break (c8_head_nb hc)]
    rfl
  unfold correctCommentIndentation
  rw [hsplit]
  simp [pyLstrip_nonws (show pyIsSpace '/' = false from by decide), c8Cmt, c8L,
    List.append_assoc]

theorem c8_once (a b c : Str) (n : Nat)
    (ha : ∀ ch ∈ a, isLineBreak ch = false)
    (hb : ∀ ch ∈ b, isLineBreak ch = false)
    (hc : ∀ ch ∈ c, isLineBreak ch = false) :
    processOutputFile (c8Cm a b c) (c8Down n) = c8Cmt n a b c ++ c8Down n := by
  unfold processOutputFile
  rw [c8_down_lines n]
  simp only [List.foldl_cons, List.foldl_nil]
  rw [processLine_decl (c8Cm a b c) [] (c8Down n) (("Widget").toList)
      (c8L a ++ (c8L b ++ c8L c)) (c8_classDecl n) (by simp [c8Cm, aget])
      (by simp [c8L]),
    c8_indent, c8_cci a b c n ha hb hc]
  simp

theorem c8_twice (a b c : Str) (n : Nat)
    (ha : ∀ ch ∈ a, isLineBreak ch = false)
    (hb : ∀ ch ∈ b, isLineBreak ch = false)
    (hc : ∀ ch ∈ c, isLineBreak ch = false)
    (hBa : '\x7b' ∉ a) (hBb : '\x7b' ∉ b) (hBc : '\x7b' ∉ c) :
    processOutputFile (c8Cm a b c) (c8Cmt n a b c ++ c8Down n) =
      c8Cmt n a b c ++ (c8Cmt n a b c ++ c8Down n) := by
  have hstep : ∀ (x w : Str), '\n' ∉ x →
      linesKeepNL ((List.replicate n ' ' ++ c8L x) ++ w) =
        (List.replicate n ' ' ++ c8L x) :: linesKeepNL w := by
    intro x w hx
    rw [show (List.replicate n ' ' ++ c8L x) ++ w =
          (List.replicate n ' ' ++ ('/' :: '/' :: '/' :: ' ' :: x)) ++
            '\n' :: w from by simp [c8L, List.append_assoc]]
    rw [linesKeepNL_break (c8_ind_nn hx n) w]
    simp [c8L, List.append_assoc]
  have hlines : linesKeepNL (c8Cmt n a b c ++ c8Down n) =
      [List.replicate n ' ' ++ c8L a, List.replicate n ' ' ++ c8L b,
        List.replicate n ' ' ++ c8L c, c8Down n] := by
    rw [show c8Cmt n a b c ++ c8Down n =
          (List.replicate n ' ' ++ c8L a) ++
            ((List.replicate n ' ' ++ c8L b) ++
              ((List.replicate n ' ' ++ c8L c) ++ c8Down n)) from by
        simp [c8Cmt, List.append_assoc]]
    rw [hstep a _ (c8_nn_of_nb ha), hstep b _ (c8_nn_of_nb hb),
      hstep c _ (c8_nn_of_nb hc), c8_down_lines n]
  unfold processOutputFile
  rw [hlines]
  simp only [List.foldl_cons, List.foldl_nil]
  rw [processLine_pass _ _ _ (c8_cd_none a n) (c8_ed_none a n)
      (csharpProperty_none (c8_line_no_brace hBa n)),
    processLine_pass _ _ _ (c8_cd_none b n) (c8_ed_none b n)
      (csharpProperty_none (c8_line_no_brace hBb n)),
    processLine_pass _ _ _ (c8_cd_none c n) (c8_ed_none c n)
      (csharpProperty_none (c8_line_no_brace hBc n)),
    processLine_decl (c8Cm a b c) _ (c8Down n) (("Widget").toList)
      (c8L a ++ (c8L b ++ c8L c)) (c8_classDecl n) (by simp [c8Cm, aget])
      (by simp [c8L]),
    c8_indent, c8_cci a b c n ha hb hc]
  simp [c8Cmt, List.append_assoc]

/-- Claim C8, counterexample.  With the comment index scanned from an
upstream file giving class Widget a three-line doc block, running
process_output_file a second time on its own output inserts the comment
block again: the insertion is unconditional, nothing checks whether the
declaration is already preceded by the comment. -/
theorem c8_counterexample :
    processOutputFile
        (scanInputFile [] ⟨[], [], []⟩
          (c8Up (("A").toList) (("B").toList) (("C").toList)))
        (processOutputFile
          (scanInputFile [] ⟨[], [], []⟩
            (c8Up (("A").toList) (("B").toList) (("C").toList)))
          (c8Down 2)) ≠
      processOutputFile
        (scanInputFile [] ⟨[], [], []⟩
          (c8Up (("A").toList) (("B").toList) (("C").toList)))
        (c8Down 2) := by decide

/-- Claim C8, amended.  Given an upstream file associating class Widget
with a three-line Doxygen block (bodies free of line breaks and braces)
and a downstream file declaring the class at indentation n without a
preceding comment, one run of process_output_file produces exactly the
three comment lines, re-indented to n spaces, immediately before the
declaration line; but a second run inserts the same block a second time
instead of leaving the file unchanged. -/
theorem c8_amended (a b c : Str) (n : Nat)
    (ha : ∀ ch ∈ a, isLineBreak ch = false)
    (hb : ∀ ch ∈ b, isLineBreak ch = false)
    (hc : ∀ ch ∈ c, isLineBreak ch = false)
    (hBa : '\x7b' ∉ a) (hBb : '\x7b' ∉ b) (hBc : '\x7b' ∉ c) :
    scanInputFile [] ⟨[], [], []⟩ (c8Up a b c) = c8Cm a b c ∧
    processOutputFile (c8Cm a b c) (c8Down n) = c8Cmt n a b c ++ c8Down n ∧
    processOutputFile (c8Cm a b c) (c8Cmt n a b c ++ c8Down n) =
      c8Cmt n a b c ++ (c8Cmt n a b c ++ c8Down n) :=
  ⟨c8_scan a b c ha hb hc, c8_once a b c n ha hb hc,
    c8_twice a b c n ha hb hc hBa hBb hBc⟩

theorem c8_amended_witness :
    (∀ ch ∈ (("A").toList : Str), isLineBreak ch = false) ∧
    processOutputFile (c8Cm (("A").toList) (("B").toList) (("C").toList))
        (c8Down 2) =
      c8Cmt 2 (("A").toList) (("B").toList) (("C").toList) ++ c8Down 2 :=
  ⟨by decide,
    (c8_amended (("A").toList) (("B").toList) (("C").toList) 2
      (by decide) (by decide) (by decide)
      (by decide) (by decide) (by decide)).2.1⟩

theorem c10_comment_index_witness :
    startsWithStr (pyStrip (("class Foo;").toList)) sTripleSlash = false ∧
    aget (scanLine [] ⟨⟨[(("Foo").toList, ("/// old\n").toList)], [], []⟩,
        [("/// new\n").toList], none⟩ (("class Foo;").toList)).comments.classes
      (("Foo").toList) = some (("/// old\n").toList) :=
  ⟨by decide,
    (c10_comment_index [] ⟨⟨[(("Foo").toList, ("/// old\n").toList)], [], []⟩,
        [("/// new\n").toList], none⟩ (("class Foo;").toList)
      (by decide) (by decide)).1 (("Foo").toList) (("/// old\n").toList)
      (by decide) (by decide) (by decide)⟩

theorem c7_amended_witness :
    ([] : List Rule).Sublist [Rule.fixSealed] ∧
      ((∀ r ∈ [Rule.fixSealed],
          applyRule r (("hello").toList) 0 = some (("hello").toList)) →
        (("hello").toList : Str) = ("hello").toList ∧ ([] : List Rule) = []) :=
  c7_amended [Rule.fixSealed] (("hello").toList) 0 (("hello").toList) []
    (by decide)

end SwigSpec
